import Mathlib

/-!
Verification of the `private-currency` service core against its specification.

The development shallowly embeds the service's data model and operations:

* `crypto/proofs.rs` — Pedersen commitments are modelled over the Ristretto
  group of prime order `ell`; a commitment `value·G + blinding·H` is
  represented by its coefficient pair `(value, blinding) : ZMod ell × ZMod ell`
  (the generators `G`, `H` have an unknown discrete-log relation, so the
  scheme treats the two coordinates as independent).  Bulletproof range
  proofs are modelled as an ideal functionality: a proof verifies against a
  commitment exactly when it exhibits an opening of that commitment whose
  value lies in `[0, 2^64)`.  Ed25519 signatures are likewise idealized: a
  message records the key under which its signature verifies.
* `storage.rs` — the Merkelized schema becomes an explicit state record;
  Merkle roots of history lists and unaccepted-transfer sets are abstracted
  by injective-by-construction fold encodings (the exact hash is an external
  library); the exonum `SparseListIndex` is modelled by a length plus a
  partial entry map (`push` appends at `length`, `set` extends the length,
  `remove` leaves the length unchanged), per its library documentation.
* Rust panics (`expect`, unreachable states) are modelled as the `crashed`
  outcome / a `none` result, and execution errors as returned values, as in
  the source.
-/

/-- Order of the Ristretto group over Curve25519 (a prime). -/
def ell : ℕ := 2 ^ 252 + 27742317777372353535851937790883648493

theorem ell_pos : 0 < ell := by
  have : (0 : ℕ) < 2 ^ 252 := Nat.pos_pow_of_pos 252 (by norm_num)
  unfold ell
  omega

theorem two_pow_64_lt_ell : 2 ^ 64 < ell := by
  unfold ell
  have h : (2 : ℕ) ^ 64 < 2 ^ 252 := Nat.pow_lt_pow_right (by norm_num) (by norm_num)
  omega

instance : NeZero ell := ⟨by have := ell_pos; omega⟩

/-- Scalars of the Ristretto group (blinding factors, committed residues). -/
abbrev Scalar : Type := ZMod ell

/-- A Pedersen commitment `x·G + y·H`, represented by the coefficient pair
`(x, y)` on the two generators.  Group addition and subtraction are
componentwise, matching `impl Add/Sub for Commitment`. -/
abbrev Commitment : Type := Scalar × Scalar

/-- Opening for a Pedersen commitment: committed value (a `u64` in the
source; here a `ℕ` whose 64-bit bound is enforced by the checked operations)
and the blinding scalar. -/
structure Opening where
  value : ℕ
  blinding : Scalar
deriving DecidableEq

/-- `Commitment::from_opening`. -/
def Commitment.from_opening (o : Opening) : Commitment :=
  ((o.value : Scalar), o.blinding)

/-- `Commitment::with_no_blinding`. -/
def Commitment.with_no_blinding (v : ℕ) : Commitment :=
  ((v : Scalar), 0)

/-- `Opening::with_no_blinding`. -/
def Opening.with_no_blinding (v : ℕ) : Opening := ⟨v, 0⟩

/-- `impl Add for Opening`: `checked_add` on the `u64` values (failure on
overflow is a panic in the source, modelled by `none`), scalar addition of
the blindings. -/
def Opening.add (a b : Opening) : Option Opening :=
  if a.value + b.value < 2 ^ 64 then
    some ⟨a.value + b.value, a.blinding + b.blinding⟩
  else none

/-- `impl Sub for Opening`: `checked_sub` on the `u64` values (failure on
underflow is a panic in the source, modelled by `none`), scalar subtraction
of the blindings. -/
def Opening.sub (a b : Opening) : Option Opening :=
  if b.value ≤ a.value then
    some ⟨a.value - b.value, a.blinding - b.blinding⟩
  else none

/-- `SimpleRangeProof`, modelled as an ideal functionality: the proof
exhibits the opening it certifies.  (The Bulletproof library is external;
per §4.1 of the spec a valid proof certifies exactly that the committed
value lies in `[0, 2^64)`.) -/
structure SimpleRangeProof where
  claimed : Opening
deriving DecidableEq

/-- `SimpleRangeProof::prove`. -/
def SimpleRangeProof.prove (o : Opening) : Option SimpleRangeProof :=
  if o.value < 2 ^ 64 then some ⟨o⟩ else none

/-- `SimpleRangeProof::verify`: the proof verifies against `c` exactly when
its opening opens `c` to a value in `[0, 2^64)`. -/
def SimpleRangeProof.verify (p : SimpleRangeProof) (c : Commitment) : Bool :=
  decide (p.claimed.value < 2 ^ 64) && decide (Commitment.from_opening p.claimed = c)

/-- Public keys (Ed25519 verification keys), modelled as opaque identifiers. -/
abbrev PublicKey : Type := ℕ

/-- Transaction hashes, modelled as opaque identifiers. -/
abbrev Hash : Type := ℕ

/-- Service configuration (`CONFIG` in `lib.rs`); `rollback_delay_bounds` is
the half-open range `[delayLo, delayHi)`. -/
structure Config where
  initial_balance : ℕ
  delayLo : ℕ
  delayHi : ℕ
  min_transfer_amount : ℕ

/-- `CONFIG`: `initial_balance = 1_000_000`, `rollback_delay_bounds = 5..1000`,
`min_transfer_amount = 1`. -/
def CONFIG : Config := ⟨1000000, 5, 1000, 1⟩

/-- Modelled from the spec: the `Transfer` transaction of `transactions.rs`
in its current form, which carries the sender's perceived history length.
(The copy of `transactions.rs` under `src/` is a stale revision without the
`history_len` field; the crate docs in `lib.rs`, the callers in `secrets.rs`
and the tests in `tests/tx_logic.rs` all require the field.)  `signedBy`
idealizes the Ed25519 signature: `verify_signature(k)` holds iff
`signedBy = k`.  The `encrypted_data` payload is opaque to every claim and
is carried as a bare identifier. -/
structure Transfer where
  fromPk : PublicKey
  toPk : PublicKey
  rollback_delay : ℕ
  history_len : ℕ
  amount : Commitment
  amount_proof : SimpleRangeProof
  sufficient_balance_proof : SimpleRangeProof
  encrypted_data : ℕ
  signedBy : PublicKey
deriving DecidableEq

/-- `CreateWallet` transaction. -/
structure CreateWalletTx where
  key : PublicKey
  signedBy : PublicKey
deriving DecidableEq

/-- `Accept` transaction. -/
structure Accept where
  receiver : PublicKey
  transfer_id : Hash
  signedBy : PublicKey
deriving DecidableEq

/-- Modelled from the spec: `Transfer::verify_stateless` — the sender's
perceived history length is positive and the amount proof verifies against
`amount − Comm(min_transfer_amount; 0)` (§4.1 of the spec; missing from the
stale `transactions.rs` under `src/`, whose inherent `verify` checks the
proof against `amount` itself). -/
def Transfer.verify_stateless (t : Transfer) : Bool :=
  decide (0 < t.history_len) &&
    t.amount_proof.verify (t.amount - Commitment.with_no_blinding CONFIG.min_transfer_amount)

/-- Modelled from the spec: stateless `Transaction::verify` for `Transfer` —
signature by `from`; `from ≠ to`; `rollback_delay ∈ [5, 1000)`; and the
stateless checks of `verify_stateless`. -/
def Transfer.verify (t : Transfer) : Bool :=
  decide (t.signedBy = t.fromPk) && decide (t.fromPk ≠ t.toPk) &&
    decide (CONFIG.delayLo ≤ t.rollback_delay) && decide (t.rollback_delay < CONFIG.delayHi) &&
    t.verify_stateless

/-- `Transfer::verify_stateful` (against a balance commitment): the
sufficient-balance proof verifies against `balance − amount`. -/
def Transfer.verify_stateful (t : Transfer) (balance : Commitment) : Bool :=
  t.sufficient_balance_proof.verify (balance - t.amount)

/-- `Transfer::create` (in `secrets.rs`): builds the amount commitment from
the chosen opening, proves `amount − Comm(min_transfer_amount; 0) ∈ [0, 2^64)`
using the blinding-preserving difference of openings, and proves sufficient
balance against `balance − amount`.  The caller-side `assert!`s of the
source are the preconditions of the claims that use this definition;
`none` models a failing `SimpleRangeProof::prove` or opening arithmetic. -/
def Transfer.create (amount : ℕ) (blinding : Scalar) (receiver : PublicKey)
    (rollback_delay : ℕ) (senderPk : PublicKey) (senderBalance : Opening)
    (senderHistoryLen : ℕ) : Option Transfer := do
  let opening : Opening := ⟨amount, blinding⟩
  let committed_amount := Commitment.from_opening opening
  let diff ← opening.sub (Opening.with_no_blinding CONFIG.min_transfer_amount)
  let amount_proof ← SimpleRangeProof.prove diff
  let remaining ← senderBalance.sub opening
  let sufficient_balance_proof ← SimpleRangeProof.prove remaining
  pure ⟨senderPk, receiver, rollback_delay, senderHistoryLen, committed_amount,
    amount_proof, sufficient_balance_proof, 0, senderPk⟩

/-- Storage representation of a wallet-history event (`Event` in
`storage.rs`): a tag and the associated transaction hash. -/
structure Event where
  tag : ℕ
  transaction_hash : Hash
deriving DecidableEq

/-- `Event::create_wallet` (tag `EventTag::CreateWallet = 0`). -/
def Event.create_wallet_ev (id : Hash) : Event := ⟨0, id⟩

/-- `Event::transfer` (tag `EventTag::Transfer = 1`). -/
def Event.transfer_ev (id : Hash) : Event := ⟨1, id⟩

/-- `Event::rollback` (tag `EventTag::Rollback = 2`). -/
def Event.rollback_ev (id : Hash) : Event := ⟨2, id⟩

/-- Encoding of an event used by the abstract Merkle-root function. -/
def Event.enc (e : Event) : ℕ := Nat.pair e.tag e.transaction_hash

/-- Abstraction of the `ProofListIndex` Merkle root of a wallet history
(the concrete hash is an external library; only the functional dependence
of the root on the list matters here). -/
def historyRoot (l : List Event) : ℕ :=
  l.foldr (fun e acc => Nat.pair (Event.enc e) acc + 1) 0

/-- Abstraction of the `ProofMapIndex` Merkle root of an
unaccepted-transfer set; the root of the empty set is the zero hash `0`. -/
def unaccRoot (l : List Hash) : ℕ :=
  l.foldr (fun h acc => Nat.pair h acc + 1) 0

/-- The exonum `SparseListIndex`, specialized to `Commitment` values: a
length plus a partial entry map.  `push` appends at index `length`; `set`
writes at an index and extends the length past it; `remove` deletes an
entry without changing the length. -/
structure SparseList where
  length : ℕ
  entries : ℕ → Option Commitment

/-- The empty sparse list. -/
def SparseList.empty : SparseList := ⟨0, fun _ => none⟩

/-- `SparseListIndex::get`. -/
def SparseList.get (l : SparseList) (i : ℕ) : Option Commitment := l.entries i

/-- `SparseListIndex::set`. -/
def SparseList.set (l : SparseList) (i : ℕ) (v : Commitment) : SparseList :=
  ⟨max l.length (i + 1), fun j => if j = i then some v else l.entries j⟩

/-- `SparseListIndex::push`. -/
def SparseList.push (l : SparseList) (v : Commitment) : SparseList :=
  ⟨l.length + 1, fun j => if j = l.length then some v else l.entries j⟩

/-- The `for i in indices { past_balances.remove(i) }` loop of
`Schema::update_sender`: every entry is removed, the length is unchanged. -/
def SparseList.removeAll (l : SparseList) : SparseList :=
  ⟨l.length, fun _ => none⟩

/-- Wallet summary (`Wallet` in `storage.rs`). -/
structure Wallet where
  public_key : PublicKey
  balance : Commitment
  history_len : ℕ
  last_send_index : ℕ
  history_hash : ℕ
  unaccepted_transfers_hash : ℕ
deriving DecidableEq

/-- `Wallet::initialize`: commitment to `initial_balance` with no blinding,
`history_len = 1`, `last_send_index = 0`, zero unaccepted-transfers hash. -/
def Wallet.mkInitial (key : PublicKey) (history_hash : ℕ) : Wallet :=
  ⟨key, Commitment.with_no_blinding CONFIG.initial_balance, 1, 0, history_hash, 0⟩

/-- `Wallet::subtract_balance`: balance decreases by `difference`,
`history_len` increments, `last_send_index` becomes the old `history_len`
(the index of the appended Transfer event). -/
def Wallet.subtract_balance (w : Wallet) (difference : Commitment) (history_hash : ℕ) : Wallet :=
  ⟨w.public_key, w.balance - difference, w.history_len + 1, w.history_len,
    history_hash, w.unaccepted_transfers_hash⟩

/-- `Wallet::add_balance`: balance increases by `difference`, `history_len`
increments, `last_send_index` is unchanged. -/
def Wallet.add_balance (w : Wallet) (difference : Commitment) (history_hash : ℕ) : Wallet :=
  ⟨w.public_key, w.balance + difference, w.history_len + 1, w.last_send_index,
    history_hash, w.unaccepted_transfers_hash⟩

/-- `Wallet::set_unaccepted_transfers_hash`. -/
def Wallet.set_unaccepted_transfers_hash (w : Wallet) (h : ℕ) : Wallet :=
  { w with unaccepted_transfers_hash := h }

/-- Pointwise map update (`ProofMapIndex::put` and friends). -/
def upd {β : Type} (f : ℕ → β) (k : ℕ) (v : β) : ℕ → β :=
  fun x => if x = k then v else f x

theorem upd_same {β : Type} (f : ℕ → β) (k : ℕ) (v : β) : upd f k v k = v := by
  simp [upd]

theorem upd_ne {β : Type} (f : ℕ → β) (k : ℕ) (v : β) (x : ℕ) (h : x ≠ k) :
    upd f k v x = f x := by
  simp [upd, h]

/-- `KeySetIndex::insert` / `ProofMapIndex::put` on a key set represented as
a duplicate-free list (insertion order). -/
def insertKey (l : List Hash) (h : Hash) : List Hash :=
  if h ∈ l then l else l ++ [h]

/-- The full service schema state: the `wallets` map, per-wallet history
lists, per-wallet unaccepted-transfer sets, per-height rollback queues, the
per-wallet past-balance cache, and the core blockchain schema's committed
transaction store (`transactions()`) with block locations
(`transactions_locations()`). -/
structure SchemaState where
  wallets : PublicKey → Option Wallet
  history : PublicKey → List Event
  unaccepted : PublicKey → List Hash
  rollback : ℕ → List Hash
  pastBalances : PublicKey → SparseList
  transfers : Hash → Option Transfer
  txLoc : Hash → Option ℕ

/-- The empty genesis state. -/
def initState : SchemaState :=
  ⟨fun _ => none, fun _ => [], fun _ => [], fun _ => [],
    fun _ => SparseList.empty, fun _ => none, fun _ => none⟩

/-- Execution errors of the service, per §7 of the spec (the stale
`transactions.rs` under `src/` lacks `OutdatedHistory`/`InvalidHistoryRef`;
the tests in `tests/tx_logic.rs` reference them). -/
inductive ExecError where
  | WalletExists
  | UnregisteredSender
  | UnregisteredReceiver
  | IncorrectProof
  | OutdatedHistory
  | InvalidHistoryRef
  | UnknownTransfer
  | UnauthorizedAccept
deriving DecidableEq

/-- Outcome of a stateful schema operation: normal return, a typed
execution error returned to the caller, or a Rust panic (an `expect`
failure). -/
inductive ExecResult where
  | ok
  | fail : ExecError → ExecResult
  | crashed
deriving DecidableEq

/-- `Schema::create_wallet`: reject with `WalletExists` if the wallet is
present (no state change); otherwise append a `CreateWallet` event,
recompute the history root, initialize the wallet, and seed
`past_balances[pk][0]` with the initial balance. -/
def create_wallet (s : SchemaState) (key : PublicKey) (txHash : Hash) :
    ExecResult × SchemaState :=
  if (s.wallets key).isSome then (.fail .WalletExists, s)
  else
    let hist := s.history key ++ [Event.create_wallet_ev txHash]
    let w := Wallet.mkInitial key (historyRoot hist)
    (.ok, { s with
      history := upd s.history key hist
      pastBalances := upd s.pastBalances key ((s.pastBalances key).set 0 w.balance)
      wallets := upd s.wallets key (some w) })

/-- `Schema::update_sender`: append a Transfer event, recompute the history
root, subtract the amount from the balance, purge every cached past balance
and record the newest one at index `new history_len − 1`. -/
def update_sender (s : SchemaState) (sender : Wallet) (amount : Commitment) (txHash : Hash) :
    SchemaState :=
  let key := sender.public_key
  let hist := s.history key ++ [Event.transfer_ev txHash]
  let updated := sender.subtract_balance amount (historyRoot hist)
  let pb := ((s.pastBalances key).removeAll).set (updated.history_len - 1) updated.balance
  { s with
    history := upd s.history key hist
    pastBalances := upd s.pastBalances key pb
    wallets := upd s.wallets key (some updated) }

/-- `Schema::add_unaccepted_payment`: insert the transfer hash into
`unaccepted[to]`, recompute its root into the receiver's wallet, and
schedule expiry in the rollback queue at the executing block's height plus
`rollback_delay` (`CoreSchema::height().next() + delay` in the source;
`blockHeight` is the height of the block being executed). -/
def add_unaccepted_payment (s : SchemaState) (receiver : Wallet) (t : Transfer)
    (txHash : Hash) (blockHeight : ℕ) : SchemaState :=
  let key := receiver.public_key
  let ua := insertKey (s.unaccepted key) txHash
  let bucketH := blockHeight + t.rollback_delay
  let receiver2 := receiver.set_unaccepted_transfers_hash (unaccRoot ua)
  { s with
    unaccepted := upd s.unaccepted key ua
    rollback := upd s.rollback bucketH (insertKey (s.rollback bucketH) txHash)
    wallets := upd s.wallets key (some receiver2) }

/-- Modelled from the spec: stateful `Transfer::execute` in its current form
(missing from the stale `transactions.rs` under `src/`).  Load sender
(`UnregisteredSender`) and receiver (`UnregisteredReceiver`); reject
`OutdatedHistory` if `sender.last_send_index + 1 > transfer.history_len`;
fetch `past_balances[from][history_len − 1]` (`InvalidHistoryRef` if
absent); verify the sufficient-balance proof against `past_balance − amount`
(`IncorrectProof`); then mutate via `Schema::update_sender` and
`Schema::add_unaccepted_payment`.  The core blockchain schema records the
committed transaction and its block location (`blockHeight`). -/
def Transfer.execute (t : Transfer) (s : SchemaState) (txHash : Hash) (blockHeight : ℕ) :
    ExecResult × SchemaState :=
  match s.wallets t.fromPk, s.wallets t.toPk with
  | none, _ => (.fail .UnregisteredSender, s)
  | some _, none => (.fail .UnregisteredReceiver, s)
  | some sender, some receiver =>
    if t.history_len < sender.last_send_index + 1 then (.fail .OutdatedHistory, s)
    else
      match (s.pastBalances t.fromPk).get (t.history_len - 1) with
      | none => (.fail .InvalidHistoryRef, s)
      | some past_balance =>
        if ! t.verify_stateful past_balance then (.fail .IncorrectProof, s)
        else
          let s1 := update_sender s sender t.amount txHash
          let s2 := add_unaccepted_payment s1 receiver t txHash blockHeight
          (.ok, { s2 with
            transfers := upd s2.transfers txHash (some t)
            txLoc := upd s2.txLoc txHash (some blockHeight) })

/-- `Schema::accept_payment`, exactly in source order: push a Transfer event
onto the receiver's history first; then check membership in
`unaccepted[receiver]` (returning `UnknownTransfer` with the event already
pushed onto the fork); remove the hash and recompute the root; load the
receiver's wallet (`UnregisteredReceiver`); credit the balance, store the
new roots, append the new balance to `past_balances[receiver]`; finally
recompute the expiry height from the transaction store
(`Schema::rollback_height`, whose `expect`s are modelled by `crashed`) and
remove the hash from the rollback queue. -/
def accept_payment (s : SchemaState) (t : Transfer) (tid : Hash) :
    ExecResult × SchemaState :=
  let receiver := t.toPk
  let hist := s.history receiver ++ [Event.transfer_ev tid]
  let s1 : SchemaState := { s with history := upd s.history receiver hist }
  if tid ∉ s1.unaccepted receiver then (.fail .UnknownTransfer, s1)
  else
    let ua := (s1.unaccepted receiver).erase tid
    let s2 : SchemaState := { s1 with unaccepted := upd s1.unaccepted receiver ua }
    match s2.wallets receiver with
    | none => (.fail .UnregisteredReceiver, s2)
    | some rw =>
      let rw2 := (rw.add_balance t.amount (historyRoot hist)).set_unaccepted_transfers_hash
        (unaccRoot ua)
      let s3 : SchemaState := { s2 with
        pastBalances := upd s2.pastBalances receiver ((s2.pastBalances receiver).push rw2.balance)
        wallets := upd s2.wallets receiver (some rw2) }
      match s3.txLoc tid, s3.transfers tid with
      | some loc, some tr =>
        let bucketH := loc + tr.rollback_delay
        (.ok, { s3 with rollback := upd s3.rollback bucketH ((s3.rollback bucketH).erase tid) })
      | _, _ => (.crashed, s3)

/-- `Accept::execute`: load the referenced `Transfer` from the ledger's
transaction store (`maybe_transfer`; `UnknownTransfer` if the hash has no
committed location or is not a `Transfer`), reject `UnauthorizedAccept`
unless `transfer.to` is the accepting receiver, then run
`Schema::accept_payment`. -/
def Accept.execute (a : Accept) (s : SchemaState) : ExecResult × SchemaState :=
  match s.txLoc a.transfer_id, s.transfers a.transfer_id with
  | some _, some t =>
    if t.toPk ≠ a.receiver then (.fail .UnauthorizedAccept, s)
    else accept_payment s t a.transfer_id
  | _, _ => (.fail .UnknownTransfer, s)

/-- `Schema::rollback_single`: append a Rollback event to the sender's
history, recompute the root, credit the sender's balance by the transfer
amount (`Wallet::add_balance`), and append the new balance to
`past_balances[from]`.  The `expect("sender")` on a missing sender wallet
is modelled by `none`; in the source the history push precedes that
`expect`, but a panic aborts the node before the fork is merged, so the
missing-wallet branch carries no state. -/
def rollback_single (s : SchemaState) (t : Transfer) (transfer_hash : Hash) :
    Option SchemaState :=
  match s.wallets t.fromPk with
  | none => none
  | some sw =>
    some { s with
      history := upd s.history t.fromPk
        (s.history t.fromPk ++ [Event.rollback_ev transfer_hash])
      wallets := upd s.wallets t.fromPk (some (sw.add_balance t.amount
        (historyRoot (s.history t.fromPk ++ [Event.rollback_ev transfer_hash]))))
      pastBalances := upd s.pastBalances t.fromPk
        ((s.pastBalances t.fromPk).push (sw.balance + t.amount)) }

/-- Insert-or-overwrite into the `HashMap<PublicKey, Hash>` of updated
unaccepted-transfer roots accumulated by `Schema::do_rollback`. -/
def updAssoc (l : List (PublicKey × ℕ)) (k : PublicKey) (v : ℕ) : List (PublicKey × ℕ) :=
  if l.any (fun p => p.1 = k) then l.map (fun p => if p.1 = k then (k, v) else p)
  else l ++ [(k, v)]

/-- The per-transfer loop of `Schema::do_rollback`: for each scheduled hash,
load the transfer from the store (`expect("Transfer")` modelled by `none`),
run `rollback_single`, remove the hash from the rollback queue at `ht` and
from `unaccepted[to]`, and record the receiver's updated root in the batch
map. -/
def do_rollback_loop (ht : ℕ) (s : SchemaState) (acc : List (PublicKey × ℕ)) :
    List Hash → Option (SchemaState × List (PublicKey × ℕ))
  | [] => some (s, acc)
  | h :: rest =>
    match s.txLoc h, s.transfers h with
    | some _, some t =>
      match rollback_single s t h with
      | none => none
      | some s1 =>
        let s2 : SchemaState :=
          { s1 with rollback := upd s1.rollback ht ((s1.rollback ht).erase h) }
        let ua := (s2.unaccepted t.toPk).erase h
        let s3 : SchemaState := { s2 with unaccepted := upd s2.unaccepted t.toPk ua }
        do_rollback_loop ht s3 (updAssoc acc t.toPk (unaccRoot ua)) rest
    | _, _ => none

/-- The batched wallet writes at the end of `Schema::do_rollback`: one
write per distinct receiver, storing the final unaccepted-transfers root
(`expect("receiver's wallet")` modelled by `none`). -/
def write_roots (s : SchemaState) : List (PublicKey × ℕ) → Option SchemaState
  | [] => some s
  | (k, r) :: rest =>
    match s.wallets k with
    | none => none
    | some w =>
      write_roots { s with wallets := upd s.wallets k (some (w.set_unaccepted_transfers_hash r)) }
        rest

/-- `Schema::do_rollback` at height `height`: process every transfer hash
scheduled at that height, then apply the batched wallet writes. -/
def do_rollback (s : SchemaState) (height : ℕ) : Option SchemaState :=
  match do_rollback_loop height s [] (s.rollback height) with
  | none => none
  | some (s1, acc) => write_roots s1 acc

/-- A `Precommit`: the authoring validator's id and, idealizing Ed25519, the
key under which its signature verifies. -/
structure Precommit where
  validator : ℕ
  signedBy : PublicKey
deriving DecidableEq

/-- `BlockProof`: the precommits endorsing a block. -/
structure BlockProof where
  precommits : List Precommit
deriving DecidableEq

/-- `TrustAnchor`: the ordered list of validator consensus keys. -/
structure TrustAnchor where
  validators : List PublicKey
deriving DecidableEq

/-- Errors of `TrustAnchor::verify_block_proof` (`BlockVerifyError`). -/
inductive BlockVerifyError where
  | InvalidValidatorId
  | DuplicateValidators
  | NoQuorum
  | InvalidSignature
deriving DecidableEq

/-- The id-to-key mapping step of `verify_block_proof`:
`self.validators.get(id).ok_or(InvalidValidatorId)` collected over all
precommits, failing on the first out-of-range id. -/
def mapValidators (ta : TrustAnchor) : List Precommit → Option (List PublicKey)
  | [] => some []
  | p :: rest =>
    match ta.validators.get? p.validator with
    | none => none
    | some pk =>
      match mapValidators ta rest with
      | none => none
      | some pks => some (pk :: pks)

/-- `TrustAnchor::verify_block_proof`: map validator ids
(`InvalidValidatorId`), reject duplicate mapped keys
(`DuplicateValidators`, via a `HashSet` cardinality check), require at
least `2n/3 + 1` precommits (`NoQuorum`), then verify every signature
against its mapped key (`InvalidSignature`). -/
def verify_block_proof (ta : TrustAnchor) (bp : BlockProof) :
    Except BlockVerifyError Unit :=
  match mapValidators ta bp.precommits with
  | none => .error .InvalidValidatorId
  | some keys =>
    if keys.dedup.length ≠ keys.length then .error .DuplicateValidators
    else if keys.length < 2 * ta.validators.length / 3 + 1 then .error .NoQuorum
    else if ! (bp.precommits.zip keys).all (fun q => q.1.signedBy = q.2) then
      .error .InvalidSignature
    else .ok ()

/-- The state-machine edges of the service: the four mutating transitions.
A `Transfer` execution additionally requires the transaction to have passed
stateless verification (the framework executes only verified transactions;
in particular `from ≠ to`) and the committed transaction hash to be fresh
in the core store (the blockchain never commits the same transaction twice,
and hashes are collision-free in the ideal model).
Failed executions are discarded by the framework (the fork is rolled back),
so only `.ok` outcomes advance the ledger state; `do_rollback` advances it
when the hook completes without panicking. -/
inductive Step : SchemaState → SchemaState → Prop where
  | create (s : SchemaState) (k : PublicKey) (txh : Hash) (s' : SchemaState) :
      create_wallet s k txh = (.ok, s') → Step s s'
  | transfer (s : SchemaState) (t : Transfer) (txh : Hash) (bh : ℕ) (s' : SchemaState) :
      t.verify = true → s.transfers txh = none → s.txLoc txh = none →
      Transfer.execute t s txh bh = (.ok, s') → Step s s'
  | accept (s : SchemaState) (a : Accept) (s' : SchemaState) :
      Accept.execute a s = (.ok, s') → Step s s'
  | rollback (s : SchemaState) (ht : ℕ) (s' : SchemaState) :
      do_rollback s ht = some s' → Step s s'

/-- States reachable from the genesis state through committed transitions. -/
inductive Reachable : SchemaState → Prop where
  | init : Reachable initState
  | step {s s' : SchemaState} : Reachable s → Step s s' → Reachable s'

/-- The past-balance-cache invariant of §8 of the spec, together with the
auxiliary facts its preservation needs: each stored wallet is keyed by its
own public key, `last_send_index < history_len`, the sparse list is exactly
`history_len` long, an entry exists at every index of
`[last_send_index, history_len)`, and the entry at `history_len − 1` is the
current balance commitment. -/
def WalletInv (s : SchemaState) : Prop :=
  ∀ pk w, s.wallets pk = some w →
    w.public_key = pk ∧
    w.last_send_index < w.history_len ∧
    (s.pastBalances pk).length = w.history_len ∧
    (∀ i, w.last_send_index ≤ i → i < w.history_len →
      ((s.pastBalances pk).get i).isSome = true) ∧
    (s.pastBalances pk).get (w.history_len - 1) = some w.balance

/-- Keys without a wallet have an empty past-balance cache. -/
def NoWalletInv (s : SchemaState) : Prop :=
  ∀ pk, s.wallets pk = none →
    (s.pastBalances pk).length = 0 ∧ ∀ i, (s.pastBalances pk).get i = none

/-- The key sets backing `unaccepted[pk]` and `rollback_by_height[h]` are
duplicate-free. -/
def NodupInv (s : SchemaState) : Prop :=
  (∀ pk, (s.unaccepted pk).Nodup) ∧ (∀ ht, (s.rollback ht).Nodup)

/-- The pending-transfer coherence invariant: a hash sits in an unaccepted
set exactly when it sits in the rollback bucket at its commit height plus
its rollback delay, and in both cases the committed transfer and its block
location are recorded in the core store. -/
def PendingInv (s : SchemaState) : Prop :=
  (∀ h pk, h ∈ s.unaccepted pk → ∃ t loc, s.transfers h = some t ∧ pk = t.toPk ∧
    s.txLoc h = some loc ∧ h ∈ s.rollback (loc + t.rollback_delay)) ∧
  (∀ h ht, h ∈ s.rollback ht → ∃ t loc, s.transfers h = some t ∧ s.txLoc h = some loc ∧
    ht = loc + t.rollback_delay ∧ h ∈ s.unaccepted t.toPk)

/-- The combined inductive invariant of the service state machine. -/
def ServiceInv (s : SchemaState) : Prop :=
  WalletInv s ∧ NoWalletInv s ∧ NodupInv s ∧ PendingInv s

theorem inv_init : ServiceInv initState := by
  refine ⟨?_, ?_, ⟨?_, ?_⟩, ⟨?_, ?_⟩⟩ <;> intro pk <;> simp [initState, SparseList.empty,
    SparseList.get]

theorem create_wallet_ok {s s' : SchemaState} {k : PublicKey} {txh : Hash}
    (h : create_wallet s k txh = (.ok, s')) :
    s.wallets k = none ∧
    s' = { s with
      history := upd s.history k (s.history k ++ [Event.create_wallet_ev txh])
      pastBalances := upd s.pastBalances k ((s.pastBalances k).set 0
        (Commitment.with_no_blinding CONFIG.initial_balance))
      wallets := upd s.wallets k (some (Wallet.mkInitial k
        (historyRoot (s.history k ++ [Event.create_wallet_ev txh])))) } := by
  unfold create_wallet at h
  by_cases hw : (s.wallets k).isSome
  · simp [hw] at h
  · refine ⟨Option.not_isSome_iff_eq_none.mp hw, ?_⟩
    simp only [hw, Bool.false_eq_true, if_false, Prod.mk.injEq] at h
    exact h.2.symm

theorem inv_create {s s' : SchemaState} {k : PublicKey} {txh : Hash}
    (hInv : ServiceInv s) (h : create_wallet s k txh = (.ok, s')) : ServiceInv s' := by
  obtain ⟨hW, hN, hD, hP⟩ := hInv
  obtain ⟨hnone, rfl⟩ := create_wallet_ok h
  obtain ⟨hpb0, hpb⟩ := hN k hnone
  refine ⟨?_, ?_, ⟨hD.1, hD.2⟩, hP⟩
  · intro pk w hpk
    by_cases hk : pk = k
    · subst hk
      simp only [upd_same] at hpk
      cases hpk
      refine ⟨rfl, by norm_num [Wallet.mkInitial], ?_, ?_, ?_⟩
      · simp [upd_same, SparseList.set, hpb0, Wallet.mkInitial]
      · intro i h0 h1
        have : i = 0 := by simp [Wallet.mkInitial] at h1; omega
        subst this
        simp [upd_same, SparseList.set, SparseList.get]
      · simp [upd_same, SparseList.set, SparseList.get, Wallet.mkInitial]
    · simp only [upd_ne _ _ _ _ hk] at hpk ⊢
      exact hW pk w hpk
  · intro pk hpk
    by_cases hk : pk = k
    · subst hk; simp only [upd_same] at hpk; cases hpk
    · simp only [upd_ne _ _ _ _ hk] at hpk ⊢
      exact hN pk hpk

theorem mem_insertKey {l : List Hash} {h a : Hash} :
    a ∈ insertKey l h ↔ a ∈ l ∨ a = h := by
  unfold insertKey
  by_cases hm : h ∈ l
  · simp only [hm, if_true]
    constructor
    · exact Or.inl
    · rintro (ha | rfl) <;> assumption
  · simp [hm]

theorem insertKey_nodup {l : List Hash} (hl : l.Nodup) (h : Hash) :
    (insertKey l h).Nodup := by
  unfold insertKey
  by_cases hm : h ∈ l
  · simpa [hm] using hl
  · simp [hm, List.nodup_append, hl]

theorem transfer_execute_ok {t : Transfer} {s s' : SchemaState} {txh : Hash} {bh : ℕ}
    (h : Transfer.execute t s txh bh = (.ok, s')) :
    ∃ sender receiver past_balance,
      s.wallets t.fromPk = some sender ∧ s.wallets t.toPk = some receiver ∧
      sender.last_send_index + 1 ≤ t.history_len ∧
      (s.pastBalances t.fromPk).get (t.history_len - 1) = some past_balance ∧
      t.verify_stateful past_balance = true ∧
      s' = (fun s2 => { s2 with
          transfers := upd s2.transfers txh (some t)
          txLoc := upd s2.txLoc txh (some bh) })
        (add_unaccepted_payment (update_sender s sender t.amount txh) receiver t txh bh) := by
  unfold Transfer.execute at h
  cases hs : s.wallets t.fromPk with
  | none => rw [hs] at h; cases h
  | some sender =>
    cases hr : s.wallets t.toPk with
    | none => rw [hs, hr] at h; cases h
    | some receiver =>
      rw [hs, hr] at h
      by_cases hout : t.history_len < sender.last_send_index + 1
      · simp [hout] at h
      · simp only [hout, if_false] at h
        cases hpb : (s.pastBalances t.fromPk).get (t.history_len - 1) with
        | none => rw [hpb] at h; cases h
        | some past_balance =>
          rw [hpb] at h
          by_cases hsf : t.verify_stateful past_balance = true
          · simp only [hsf, Bool.not_true, Bool.false_eq_true, if_false, Prod.mk.injEq] at h
            exact ⟨sender, receiver, past_balance, rfl, rfl, by omega, rfl, hsf, h.2.symm⟩
          · simp only [Bool.not_eq_true] at hsf
            simp [hsf] at h

theorem verify_from_ne_to {t : Transfer} (hv : t.verify = true) : t.fromPk ≠ t.toPk := by
  unfold Transfer.verify at hv
  simp only [Bool.and_eq_true, decide_eq_true_eq] at hv
  exact hv.1.1.1.2

theorem inv_transfer {t : Transfer} {s s' : SchemaState} {txh : Hash} {bh : ℕ}
    (hInv : ServiceInv s) (hv : t.verify = true)
    (hfresh : s.transfers txh = none) (hlfresh : s.txLoc txh = none)
    (h : Transfer.execute t s txh bh = (.ok, s')) : ServiceInv s' := by
  obtain ⟨hW, hN, hD, hP⟩ := hInv
  obtain ⟨sender, receiver, past_balance, hs, hr, hidx, hpb, hsf, rfl⟩ := transfer_execute_ok h
  have hne : t.fromPk ≠ t.toPk := verify_from_ne_to hv
  obtain ⟨hkS, hlsS, hlenS, hgetS, hlastS⟩ := hW _ _ hs
  obtain ⟨hkR, hlsR, hlenR, hgetR, hlastR⟩ := hW _ _ hr
  set S := (fun s2 => { s2 with
      transfers := upd s2.transfers txh (some t)
      txLoc := upd s2.txLoc txh (some bh) })
    (add_unaccepted_payment (update_sender s sender t.amount txh) receiver t txh bh)
    with hS
  have eW : S.wallets = upd (upd s.wallets t.fromPk
      (some ⟨t.fromPk, sender.balance - t.amount, sender.history_len + 1, sender.history_len,
        historyRoot (s.history t.fromPk ++ [Event.transfer_ev txh]),
        sender.unaccepted_transfers_hash⟩)) t.toPk
      (some ⟨t.toPk, receiver.balance, receiver.history_len, receiver.last_send_index,
        receiver.history_hash, unaccRoot (insertKey (s.unaccepted t.toPk) txh)⟩) := by
    rw [hS]
    simp [add_unaccepted_payment, update_sender, Wallet.subtract_balance,
      Wallet.set_unaccepted_transfers_hash, hkS, hkR]
  have eH : S.history = upd s.history t.fromPk
      (s.history t.fromPk ++ [Event.transfer_ev txh]) := by
    rw [hS]
    simp [add_unaccepted_payment, update_sender, hkS]
  have eU : S.unaccepted = upd s.unaccepted t.toPk (insertKey (s.unaccepted t.toPk) txh) := by
    rw [hS]
    simp [add_unaccepted_payment, update_sender, hkR]
  have eR : S.rollback = upd s.rollback (bh + t.rollback_delay)
      (insertKey (s.rollback (bh + t.rollback_delay)) txh) := by
    rw [hS]
    simp [add_unaccepted_payment, update_sender]
  have eP : S.pastBalances = upd s.pastBalances t.fromPk
      (((s.pastBalances t.fromPk).removeAll).set sender.history_len
        (sender.balance - t.amount)) := by
    rw [hS]
    simp [add_unaccepted_payment, update_sender, Wallet.subtract_balance, hkS]
  have eT : S.transfers = upd s.transfers txh (some t) := by
    rw [hS]
    simp [add_unaccepted_payment, update_sender]
  have eL : S.txLoc = upd s.txLoc txh (some bh) := by
    rw [hS]
    simp [add_unaccepted_payment, update_sender]
  refine ⟨?_, ?_, ⟨?_, ?_⟩, ⟨?_, ?_⟩⟩
  · -- WalletInv
    intro pk w hpk
    rw [eW] at hpk
    rw [eP]
    by_cases hkt : pk = t.toPk
    · subst hkt
      rw [upd_same] at hpk
      cases hpk
      exact ⟨rfl, hlsR, by rw [upd_ne _ _ _ _ (Ne.symm hne)]; exact hlenR,
        by rw [upd_ne _ _ _ _ (Ne.symm hne)]; exact hgetR,
        by rw [upd_ne _ _ _ _ (Ne.symm hne)]; exact hlastR⟩
    · rw [upd_ne _ _ _ _ hkt] at hpk
      by_cases hkf : pk = t.fromPk
      · subst hkf
        rw [upd_same] at hpk
        cases hpk
        refine ⟨rfl, Nat.lt_succ_self _, ?_, ?_, ?_⟩
        · rw [upd_same]
          simp [SparseList.set, SparseList.removeAll, hlenS]
        · intro i h0 h1
          replace h0 : sender.history_len ≤ i := h0
          replace h1 : i < sender.history_len + 1 := h1
          have : i = sender.history_len := by omega
          subst this
          rw [upd_same]
          simp [SparseList.set, SparseList.get]
        · rw [upd_same]
          simp [SparseList.set, SparseList.get]
      · rw [upd_ne _ _ _ _ hkf] at hpk
        obtain ⟨h1, h2, h3, h4, h5⟩ := hW pk w hpk
        rw [upd_ne _ _ _ _ hkf]
        exact ⟨h1, h2, h3, h4, h5⟩
  · -- NoWalletInv
    intro pk hpk
    rw [eW] at hpk
    rw [eP]
    by_cases hkt : pk = t.toPk
    · subst hkt; rw [upd_same] at hpk; cases hpk
    · rw [upd_ne _ _ _ _ hkt] at hpk
      by_cases hkf : pk = t.fromPk
      · subst hkf; rw [upd_same] at hpk; cases hpk
      · rw [upd_ne _ _ _ _ hkf] at hpk
        rw [upd_ne _ _ _ _ hkf]
        exact hN pk hpk
  · -- Nodup unaccepted
    intro pk
    rw [eU]
    by_cases hkt : pk = t.toPk
    · subst hkt; rw [upd_same]; exact insertKey_nodup (hD.1 _) _
    · rw [upd_ne _ _ _ _ hkt]; exact hD.1 pk
  · -- Nodup rollback
    intro ht
    rw [eR]
    by_cases hb : ht = bh + t.rollback_delay
    · subst hb; rw [upd_same]; exact insertKey_nodup (hD.2 _) _
    · rw [upd_ne _ _ _ _ hb]; exact hD.2 ht
  · -- PendingInv, direction 1
    intro h0 pk hmem
    rw [eU] at hmem
    rw [eT, eL, eR]
    by_cases hkt : pk = t.toPk
    · subst hkt
      rw [upd_same] at hmem
      rcases mem_insertKey.mp hmem with hold | rfl
      · obtain ⟨t0, loc0, ht0, hpk0, hloc0, hbkt0⟩ := hP.1 h0 _ hold
        have hne0 : h0 ≠ txh := fun he => by rw [he, hfresh] at ht0; cases ht0
        refine ⟨t0, loc0, by rw [upd_ne _ _ _ _ hne0]; exact ht0, hpk0,
          by rw [upd_ne _ _ _ _ hne0]; exact hloc0, ?_⟩
        by_cases hb : loc0 + t0.rollback_delay = bh + t.rollback_delay
        · rw [hb, upd_same]
          exact mem_insertKey.mpr (Or.inl (hb ▸ hbkt0))
        · rw [upd_ne _ _ _ _ hb]; exact hbkt0
      · exact ⟨t, bh, upd_same _ _ _, rfl, upd_same _ _ _, by
          rw [upd_same]; exact mem_insertKey.mpr (Or.inr rfl)⟩
    · rw [upd_ne _ _ _ _ hkt] at hmem
      obtain ⟨t0, loc0, ht0, hpk0, hloc0, hbkt0⟩ := hP.1 h0 _ hmem
      have hne0 : h0 ≠ txh := fun he => by rw [he, hfresh] at ht0; cases ht0
      refine ⟨t0, loc0, by rw [upd_ne _ _ _ _ hne0]; exact ht0, hpk0,
        by rw [upd_ne _ _ _ _ hne0]; exact hloc0, ?_⟩
      by_cases hb : loc0 + t0.rollback_delay = bh + t.rollback_delay
      · rw [hb, upd_same]
        exact mem_insertKey.mpr (Or.inl (hb ▸ hbkt0))
      · rw [upd_ne _ _ _ _ hb]; exact hbkt0
  · -- PendingInv, direction 2
    intro h0 ht hmem
    rw [eR] at hmem
    rw [eT, eL, eU]
    by_cases hb : ht = bh + t.rollback_delay
    · subst hb
      rw [upd_same] at hmem
      rcases mem_insertKey.mp hmem with hold | rfl
      · obtain ⟨t0, loc0, ht0, hloc0, hhts, humem0⟩ := hP.2 h0 _ hold
        have hne0 : h0 ≠ txh := fun he => by rw [he, hfresh] at ht0; cases ht0
        refine ⟨t0, loc0, by rw [upd_ne _ _ _ _ hne0]; exact ht0,
          by rw [upd_ne _ _ _ _ hne0]; exact hloc0, hhts, ?_⟩
        by_cases hkt : t0.toPk = t.toPk
        · rw [hkt, upd_same]
          exact mem_insertKey.mpr (Or.inl (hkt ▸ humem0))
        · rw [upd_ne _ _ _ _ hkt]; exact humem0
      · exact ⟨t, bh, upd_same _ _ _, upd_same _ _ _, rfl, by
          rw [upd_same]; exact mem_insertKey.mpr (Or.inr rfl)⟩
    · rw [upd_ne _ _ _ _ hb] at hmem
      obtain ⟨t0, loc0, ht0, hloc0, hhts, humem0⟩ := hP.2 h0 _ hmem
      have hne0 : h0 ≠ txh := fun he => by rw [he, hfresh] at ht0; cases ht0
      refine ⟨t0, loc0, by rw [upd_ne _ _ _ _ hne0]; exact ht0,
        by rw [upd_ne _ _ _ _ hne0]; exact hloc0, hhts, ?_⟩
      by_cases hkt : t0.toPk = t.toPk
      · rw [hkt, upd_same]
        exact mem_insertKey.mpr (Or.inl (hkt ▸ humem0))
      · rw [upd_ne _ _ _ _ hkt]; exact humem0

theorem accept_payment_ok {s s' : SchemaState} {t : Transfer} {tid : Hash}
    (h : accept_payment s t tid = (.ok, s')) :
    ∃ wR loc tr, tid ∈ s.unaccepted t.toPk ∧ s.wallets t.toPk = some wR ∧
      s.txLoc tid = some loc ∧ s.transfers tid = some tr ∧
      s' = { s with
        history := upd s.history t.toPk (s.history t.toPk ++ [Event.transfer_ev tid])
        unaccepted := upd s.unaccepted t.toPk ((s.unaccepted t.toPk).erase tid)
        pastBalances := upd s.pastBalances t.toPk
          ((s.pastBalances t.toPk).push (wR.balance + t.amount))
        wallets := upd s.wallets t.toPk (some ((wR.add_balance t.amount
          (historyRoot (s.history t.toPk ++ [Event.transfer_ev tid]))).set_unaccepted_transfers_hash
          (unaccRoot ((s.unaccepted t.toPk).erase tid))))
        rollback := upd s.rollback (loc + tr.rollback_delay)
          ((s.rollback (loc + tr.rollback_delay)).erase tid) } := by
  unfold accept_payment at h
  by_cases hmem : tid ∈ s.unaccepted t.toPk
  · simp only [hmem, not_true_eq_false, if_false] at h
    cases hw : s.wallets t.toPk with
    | none => rw [hw] at h; cases h
    | some wR =>
      rw [hw] at h
      cases hloc : s.txLoc tid with
      | none => rw [hloc] at h; cases h
      | some loc =>
        rw [hloc] at h
        cases htr : s.transfers tid with
        | none => rw [htr] at h; cases h
        | some tr =>
          rw [htr] at h
          simp only [Prod.mk.injEq] at h
          exact ⟨wR, loc, tr, hmem, rfl, rfl, rfl, h.2.symm⟩
  · simp [hmem] at h

theorem inv_accept_payment {s s' : SchemaState} {t : Transfer} {tid : Hash}
    (hInv : ServiceInv s) (htid : s.transfers tid = some t)
    (h : accept_payment s t tid = (.ok, s')) : ServiceInv s' := by
  obtain ⟨hW, hN, hD, hP⟩ := hInv
  obtain ⟨wR, loc, tr, hmem, hw, hloc, htr, rfl⟩ := accept_payment_ok h
  rw [htid] at htr
  cases htr
  obtain ⟨hkR, hlsR, hlenR, hgetR, hlastR⟩ := hW _ _ hw
  set S : SchemaState := { s with
    history := upd s.history t.toPk (s.history t.toPk ++ [Event.transfer_ev tid])
    unaccepted := upd s.unaccepted t.toPk ((s.unaccepted t.toPk).erase tid)
    pastBalances := upd s.pastBalances t.toPk
      ((s.pastBalances t.toPk).push (wR.balance + t.amount))
    wallets := upd s.wallets t.toPk (some ((wR.add_balance t.amount
      (historyRoot (s.history t.toPk ++ [Event.transfer_ev tid]))).set_unaccepted_transfers_hash
      (unaccRoot ((s.unaccepted t.toPk).erase tid))))
    rollback := upd s.rollback (loc + t.rollback_delay)
      ((s.rollback (loc + t.rollback_delay)).erase tid) } with hS
  have eW : S.wallets = upd s.wallets t.toPk
      (some ⟨wR.public_key, wR.balance + t.amount, wR.history_len + 1, wR.last_send_index,
        historyRoot (s.history t.toPk ++ [Event.transfer_ev tid]),
        unaccRoot ((s.unaccepted t.toPk).erase tid)⟩) := by
    rw [hS]
    simp [Wallet.add_balance, Wallet.set_unaccepted_transfers_hash]
  have eU : S.unaccepted = upd s.unaccepted t.toPk ((s.unaccepted t.toPk).erase tid) := by
    rw [hS]
  have eP : S.pastBalances = upd s.pastBalances t.toPk
      ((s.pastBalances t.toPk).push (wR.balance + t.amount)) := by
    rw [hS]
  have eR : S.rollback = upd s.rollback (loc + t.rollback_delay)
      ((s.rollback (loc + t.rollback_delay)).erase tid) := by
    rw [hS]
  have eT : S.transfers = s.transfers := by rw [hS]
  have eL : S.txLoc = s.txLoc := by rw [hS]
  refine ⟨?_, ?_, ⟨?_, ?_⟩, ⟨?_, ?_⟩⟩
  · -- WalletInv
    intro pk w hpk
    rw [eW] at hpk
    rw [eP]
    by_cases hkt : pk = t.toPk
    · subst hkt
      rw [upd_same] at hpk
      cases hpk
      rw [upd_same]
      refine ⟨hkR, by show wR.last_send_index < wR.history_len + 1; omega, ?_, ?_, ?_⟩
      · simp [SparseList.push, hlenR]
      · intro i h0 h1
        replace h0 : wR.last_send_index ≤ i := h0
        replace h1 : i < wR.history_len + 1 := h1
        simp only [SparseList.push, SparseList.get, hlenR]
        by_cases hi : i = wR.history_len
        · simp [hi]
        · have hi2 : i < wR.history_len := by omega
          simp only [hi, if_false]
          exact hgetR i h0 hi2
      · simp [SparseList.push, SparseList.get, hlenR]
    · rw [upd_ne _ _ _ _ hkt] at hpk
      rw [upd_ne _ _ _ _ hkt]
      exact hW pk w hpk
  · -- NoWalletInv
    intro pk hpk
    rw [eW] at hpk
    rw [eP]
    by_cases hkt : pk = t.toPk
    · subst hkt; rw [upd_same] at hpk; cases hpk
    · rw [upd_ne _ _ _ _ hkt] at hpk
      rw [upd_ne _ _ _ _ hkt]
      exact hN pk hpk
  · -- Nodup unaccepted
    intro pk
    rw [eU]
    by_cases hkt : pk = t.toPk
    · subst hkt; rw [upd_same]; exact (hD.1 _).erase tid
    · rw [upd_ne _ _ _ _ hkt]; exact hD.1 pk
  · -- Nodup rollback
    intro ht
    rw [eR]
    by_cases hb : ht = loc + t.rollback_delay
    · subst hb; rw [upd_same]; exact (hD.2 _).erase tid
    · rw [upd_ne _ _ _ _ hb]; exact hD.2 ht
  · -- PendingInv, direction 1
    intro h0 pk hmem0
    rw [eU] at hmem0
    rw [eT, eL, eR]
    by_cases hkt : pk = t.toPk
    · subst hkt
      rw [upd_same] at hmem0
      have hne0 : h0 ≠ tid := ((hD.1 _).mem_erase_iff.mp hmem0).1
      have hold : h0 ∈ s.unaccepted t.toPk := ((hD.1 _).mem_erase_iff.mp hmem0).2
      obtain ⟨t0, loc0, ht0, hpk0, hloc0, hbkt0⟩ := hP.1 h0 _ hold
      refine ⟨t0, loc0, ht0, hpk0, hloc0, ?_⟩
      by_cases hb : loc0 + t0.rollback_delay = loc + t.rollback_delay
      · rw [hb, upd_same]
        exact (List.mem_erase_of_ne hne0).mpr (hb ▸ hbkt0)
      · rw [upd_ne _ _ _ _ hb]; exact hbkt0
    · rw [upd_ne _ _ _ _ hkt] at hmem0
      obtain ⟨t0, loc0, ht0, hpk0, hloc0, hbkt0⟩ := hP.1 h0 _ hmem0
      have hne0 : h0 ≠ tid := by
        rintro rfl
        rw [htid] at ht0
        cases ht0
        exact hkt hpk0
      refine ⟨t0, loc0, ht0, hpk0, hloc0, ?_⟩
      by_cases hb : loc0 + t0.rollback_delay = loc + t.rollback_delay
      · rw [hb, upd_same]
        exact (List.mem_erase_of_ne hne0).mpr (hb ▸ hbkt0)
      · rw [upd_ne _ _ _ _ hb]; exact hbkt0
  · -- PendingInv, direction 2
    intro h0 ht hmem0
    rw [eR] at hmem0
    rw [eT, eL, eU]
    by_cases hb : ht = loc + t.rollback_delay
    · subst hb
      rw [upd_same] at hmem0
      have hne0 : h0 ≠ tid := ((hD.2 _).mem_erase_iff.mp hmem0).1
      have hold : h0 ∈ s.rollback (loc + t.rollback_delay) :=
        ((hD.2 _).mem_erase_iff.mp hmem0).2
      obtain ⟨t0, loc0, ht0, hloc0, hhts, humem0⟩ := hP.2 h0 _ hold
      refine ⟨t0, loc0, ht0, hloc0, hhts, ?_⟩
      by_cases hkt : t0.toPk = t.toPk
      · rw [hkt, upd_same]
        exact (List.mem_erase_of_ne hne0).mpr (hkt ▸ humem0)
      · rw [upd_ne _ _ _ _ hkt]; exact humem0
    · rw [upd_ne _ _ _ _ hb] at hmem0
      obtain ⟨t0, loc0, ht0, hloc0, hhts, humem0⟩ := hP.2 h0 _ hmem0
      have hne0 : h0 ≠ tid := by
        rintro rfl
        rw [htid] at ht0
        cases ht0
        rw [hloc] at hloc0
        cases hloc0
        exact hb hhts
      refine ⟨t0, loc0, ht0, hloc0, hhts, ?_⟩
      by_cases hkt : t0.toPk = t.toPk
      · rw [hkt, upd_same]
        exact (List.mem_erase_of_ne hne0).mpr (hkt ▸ humem0)
      · rw [upd_ne _ _ _ _ hkt]; exact humem0

theorem accept_execute_ok {a : Accept} {s s' : SchemaState}
    (h : Accept.execute a s = (.ok, s')) :
    ∃ t loc, s.txLoc a.transfer_id = some loc ∧ s.transfers a.transfer_id = some t ∧
      t.toPk = a.receiver ∧ accept_payment s t a.transfer_id = (.ok, s') := by
  unfold Accept.execute at h
  cases hloc : s.txLoc a.transfer_id with
  | none => rw [hloc] at h; cases h
  | some loc =>
    cases htr : s.transfers a.transfer_id with
    | none => rw [hloc, htr] at h; cases h
    | some t =>
      rw [hloc, htr] at h
      by_cases hto : t.toPk ≠ a.receiver
      · simp [hto] at h
      · simp only [hto, if_false] at h
        exact ⟨t, loc, rfl, rfl, not_not.mp hto, h⟩

theorem inv_accept {a : Accept} {s s' : SchemaState}
    (hInv : ServiceInv s) (h : Accept.execute a s = (.ok, s')) : ServiceInv s' := by
  obtain ⟨t, loc, hloc, htr, hto, hap⟩ := accept_execute_ok h
  exact inv_accept_payment hInv htr hap

theorem rollback_single_some {s s' : SchemaState} {t : Transfer} {h : Hash}
    (hr : rollback_single s t h = some s') :
    ∃ sw, s.wallets t.fromPk = some sw ∧
      s' = { s with
        history := upd s.history t.fromPk (s.history t.fromPk ++ [Event.rollback_ev h])
        wallets := upd s.wallets t.fromPk (some (sw.add_balance t.amount
          (historyRoot (s.history t.fromPk ++ [Event.rollback_ev h]))))
        pastBalances := upd s.pastBalances t.fromPk
          ((s.pastBalances t.fromPk).push (sw.balance + t.amount)) } := by
  unfold rollback_single at hr
  cases hw : s.wallets t.fromPk with
  | none => rw [hw] at hr; cases hr
  | some sw =>
    rw [hw] at hr
    cases hr
    exact ⟨sw, rfl, rfl⟩

theorem inv_rollback_step {s s1 : SchemaState} {t : Transfer} {h : Hash} {ht loc : ℕ}
    (hInv : ServiceInv s) (htr : s.transfers h = some t) (hloc : s.txLoc h = some loc)
    (hbkt : h ∈ s.rollback ht)
    (hr : rollback_single s t h = some s1) :
    ServiceInv { s1 with
      rollback := upd s1.rollback ht ((s1.rollback ht).erase h)
      unaccepted := upd s1.unaccepted t.toPk ((s1.unaccepted t.toPk).erase h) } := by
  obtain ⟨hW, hN, hD, hP⟩ := hInv
  obtain ⟨sw, hw, rfl⟩ := rollback_single_some hr
  obtain ⟨hkS, hlsS, hlenS, hgetS, hlastS⟩ := hW _ _ hw
  obtain ⟨t2, loc2, htr2, hloc2, hhts2, humem2⟩ := hP.2 h ht hbkt
  rw [htr] at htr2
  cases htr2
  rw [hloc] at hloc2
  cases hloc2
  set S : SchemaState := { s with
    history := upd s.history t.fromPk (s.history t.fromPk ++ [Event.rollback_ev h])
    wallets := upd s.wallets t.fromPk (some (sw.add_balance t.amount
      (historyRoot (s.history t.fromPk ++ [Event.rollback_ev h]))))
    pastBalances := upd s.pastBalances t.fromPk
      ((s.pastBalances t.fromPk).push (sw.balance + t.amount))
    rollback := upd s.rollback ht ((s.rollback ht).erase h)
    unaccepted := upd s.unaccepted t.toPk ((s.unaccepted t.toPk).erase h) } with hS
  show ServiceInv S
  have eW : S.wallets = upd s.wallets t.fromPk
      (some ⟨sw.public_key, sw.balance + t.amount, sw.history_len + 1, sw.last_send_index,
        historyRoot (s.history t.fromPk ++ [Event.rollback_ev h]),
        sw.unaccepted_transfers_hash⟩) := by
    rw [hS]
    simp [Wallet.add_balance]
  have eU : S.unaccepted = upd s.unaccepted t.toPk ((s.unaccepted t.toPk).erase h) := by rw [hS]
  have eP : S.pastBalances = upd s.pastBalances t.fromPk
      ((s.pastBalances t.fromPk).push (sw.balance + t.amount)) := by rw [hS]
  have eR : S.rollback = upd s.rollback ht ((s.rollback ht).erase h) := by rw [hS]
  have eT : S.transfers = s.transfers := by rw [hS]
  have eL : S.txLoc = s.txLoc := by rw [hS]
  refine ⟨?_, ?_, ⟨?_, ?_⟩, ⟨?_, ?_⟩⟩
  · -- WalletInv
    intro pk w hpk
    rw [eW] at hpk
    rw [eP]
    by_cases hkf : pk = t.fromPk
    · subst hkf
      rw [upd_same] at hpk
      cases hpk
      rw [upd_same]
      refine ⟨hkS, by show sw.last_send_index < sw.history_len + 1; omega, ?_, ?_, ?_⟩
      · simp [SparseList.push, hlenS]
      · intro i h0 h1
        replace h0 : sw.last_send_index ≤ i := h0
        replace h1 : i < sw.history_len + 1 := h1
        simp only [SparseList.push, SparseList.get, hlenS]
        by_cases hi : i = sw.history_len
        · simp [hi]
        · have hi2 : i < sw.history_len := by omega
          simp only [hi, if_false]
          exact hgetS i h0 hi2
      · simp [SparseList.push, SparseList.get, hlenS]
    · rw [upd_ne _ _ _ _ hkf] at hpk
      rw [upd_ne _ _ _ _ hkf]
      exact hW pk w hpk
  · -- NoWalletInv
    intro pk hpk
    rw [eW] at hpk
    rw [eP]
    by_cases hkf : pk = t.fromPk
    · subst hkf; rw [upd_same] at hpk; cases hpk
    · rw [upd_ne _ _ _ _ hkf] at hpk
      rw [upd_ne _ _ _ _ hkf]
      exact hN pk hpk
  · -- Nodup unaccepted
    intro pk
    rw [eU]
    by_cases hkt : pk = t.toPk
    · subst hkt; rw [upd_same]; exact (hD.1 _).erase h
    · rw [upd_ne _ _ _ _ hkt]; exact hD.1 pk
  · -- Nodup rollback
    intro b
    rw [eR]
    by_cases hb : b = ht
    · subst hb; rw [upd_same]; exact (hD.2 _).erase h
    · rw [upd_ne _ _ _ _ hb]; exact hD.2 b
  · -- PendingInv, direction 1
    intro h0 pk hmem0
    rw [eU] at hmem0
    rw [eT, eL, eR]
    by_cases hkt : pk = t.toPk
    · subst hkt
      rw [upd_same] at hmem0
      have hne0 : h0 ≠ h := ((hD.1 _).mem_erase_iff.mp hmem0).1
      have hold : h0 ∈ s.unaccepted t.toPk := ((hD.1 _).mem_erase_iff.mp hmem0).2
      obtain ⟨t0, loc0, ht0, hpk0, hloc0, hbkt0⟩ := hP.1 h0 _ hold
      refine ⟨t0, loc0, ht0, hpk0, hloc0, ?_⟩
      by_cases hb : loc0 + t0.rollback_delay = ht
      · rw [hb, upd_same]
        exact (List.mem_erase_of_ne hne0).mpr (hb ▸ hbkt0)
      · rw [upd_ne _ _ _ _ hb]; exact hbkt0
    · rw [upd_ne _ _ _ _ hkt] at hmem0
      obtain ⟨t0, loc0, ht0, hpk0, hloc0, hbkt0⟩ := hP.1 h0 _ hmem0
      have hne0 : h0 ≠ h := by
        rintro rfl
        rw [htr] at ht0
        cases ht0
        exact hkt hpk0
      refine ⟨t0, loc0, ht0, hpk0, hloc0, ?_⟩
      by_cases hb : loc0 + t0.rollback_delay = ht
      · rw [hb, upd_same]
        exact (List.mem_erase_of_ne hne0).mpr (hb ▸ hbkt0)
      · rw [upd_ne _ _ _ _ hb]; exact hbkt0
  · -- PendingInv, direction 2
    intro h0 b hmem0
    rw [eR] at hmem0
    rw [eT, eL, eU]
    by_cases hb : b = ht
    · rw [hb] at hmem0 ⊢
      rw [upd_same] at hmem0
      have hne0 : h0 ≠ h := ((hD.2 _).mem_erase_iff.mp hmem0).1
      have hold : h0 ∈ s.rollback ht := ((hD.2 _).mem_erase_iff.mp hmem0).2
      obtain ⟨t0, loc0, ht0, hloc0, hhts, humem0⟩ := hP.2 h0 _ hold
      refine ⟨t0, loc0, ht0, hloc0, hhts, ?_⟩
      by_cases hkt : t0.toPk = t.toPk
      · rw [hkt, upd_same]
        exact (List.mem_erase_of_ne hne0).mpr (hkt ▸ humem0)
      · rw [upd_ne _ _ _ _ hkt]; exact humem0
    · rw [upd_ne _ _ _ _ hb] at hmem0
      obtain ⟨t0, loc0, ht0, hloc0, hhts, humem0⟩ := hP.2 h0 _ hmem0
      have hne0 : h0 ≠ h := by
        rintro rfl
        rw [htr] at ht0
        cases ht0
        rw [hloc] at hloc0
        cases hloc0
        exact hb (hhts.trans hhts2.symm)
      refine ⟨t0, loc0, ht0, hloc0, hhts, ?_⟩
      by_cases hkt : t0.toPk = t.toPk
      · rw [hkt, upd_same]
        exact (List.mem_erase_of_ne hne0).mpr (hkt ▸ humem0)
      · rw [upd_ne _ _ _ _ hkt]; exact humem0

theorem inv_rollback_loop {ht : ℕ} : ∀ (ids : List Hash) (s : SchemaState)
    (acc : List (PublicKey × ℕ)) (out : SchemaState × List (PublicKey × ℕ)),
    ServiceInv s → ids.Nodup → (∀ h0 ∈ ids, h0 ∈ s.rollback ht) →
    do_rollback_loop ht s acc ids = some out → ServiceInv out.1
  | [], s, acc, out, hInv, _, _, hres => by
    unfold do_rollback_loop at hres
    cases hres
    exact hInv
  | h :: rest, s, acc, out, hInv, hnd, hsub, hres => by
    unfold do_rollback_loop at hres
    split at hres
    case _ loc t hloc htr =>
      cases hrs : rollback_single s t h with
      | none => rw [hrs] at hres; cases hres
      | some s1 =>
        rw [hrs] at hres
        have hbkt : h ∈ s.rollback ht := hsub h (List.mem_cons_self h rest)
        have hInv3 := inv_rollback_step hInv htr hloc hbkt hrs
        obtain ⟨sw, hw, rfl⟩ := rollback_single_some hrs
        refine inv_rollback_loop rest _ _ out hInv3 hnd.of_cons ?_ hres
        intro h' hh'
        have hne : h' ≠ h := fun he => (List.nodup_cons.mp hnd).1 (he ▸ hh')
        show h' ∈ upd s.rollback ht ((s.rollback ht).erase h) ht
        rw [upd_same]
        exact (List.mem_erase_of_ne hne).mpr (hsub h' (List.mem_cons_of_mem _ hh'))
    case _ =>
      cases hres

theorem inv_write_roots : ∀ (l : List (PublicKey × ℕ)) (s s' : SchemaState),
    ServiceInv s → write_roots s l = some s' → ServiceInv s'
  | [], s, s', hInv, hres => by
    unfold write_roots at hres
    cases hres
    exact hInv
  | (k, r) :: rest, s, s', hInv, hres => by
    unfold write_roots at hres
    cases hw : s.wallets k with
    | none => rw [hw] at hres; cases hres
    | some w =>
      rw [hw] at hres
      refine inv_write_roots rest _ s' ?_ hres
      obtain ⟨hW, hN, hD, hP⟩ := hInv
      obtain ⟨hk, hls, hlen, hget, hlast⟩ := hW _ _ hw
      refine ⟨?_, ?_, hD, hP⟩
      · intro pk w0 hpk
        have hpk2 : upd s.wallets k (some (w.set_unaccepted_transfers_hash r)) pk = some w0 := hpk
        show _ ∧ _ ∧ (s.pastBalances pk).length = _ ∧
          (∀ i, _ → _ → ((s.pastBalances pk).get i).isSome = true) ∧
          (s.pastBalances pk).get _ = _
        by_cases hkk : pk = k
        · subst hkk
          rw [upd_same] at hpk2
          cases hpk2
          exact ⟨hk, hls, hlen, hget, hlast⟩
        · rw [upd_ne _ _ _ _ hkk] at hpk2
          exact hW pk w0 hpk2
      · intro pk hpk
        have hpk2 : upd s.wallets k (some (w.set_unaccepted_transfers_hash r)) pk = none := hpk
        show (s.pastBalances pk).length = 0 ∧ ∀ i, (s.pastBalances pk).get i = none
        by_cases hkk : pk = k
        · subst hkk; rw [upd_same] at hpk2; cases hpk2
        · rw [upd_ne _ _ _ _ hkk] at hpk2
          exact hN pk hpk2

theorem inv_rollback {s s' : SchemaState} {ht : ℕ}
    (hInv : ServiceInv s) (h : do_rollback s ht = some s') : ServiceInv s' := by
  unfold do_rollback at h
  cases hres : do_rollback_loop ht s [] (s.rollback ht) with
  | none => rw [hres] at h; cases h
  | some out =>
    rw [hres] at h
    have hInv1 := inv_rollback_loop (s.rollback ht) s [] out hInv (hInv.2.2.1.2 ht)
      (fun _ hm => hm) hres
    exact inv_write_roots out.2 out.1 s' hInv1 h

theorem inv_step {s s' : SchemaState} (hInv : ServiceInv s) (h : Step s s') :
    ServiceInv s' := by
  cases h with
  | create _ _ _ hc => exact inv_create hInv hc
  | transfer _ _ _ _ hv hf hl he => exact inv_transfer hInv hv hf hl he
  | accept _ _ ha => exact inv_accept hInv ha
  | rollback _ _ hr => exact inv_rollback hInv hr

theorem inv_reachable {s : SchemaState} (h : Reachable s) : ServiceInv s := by
  induction h with
  | init => exact inv_init
  | step _ hstep ih => exact inv_step ih hstep

/-- Does the committed transfer stored under `h` originate from `pk`? -/
def isSentBy (s : SchemaState) (pk : PublicKey) (h : Hash) : Bool :=
  match s.transfers h with
  | some t => decide (t.fromPk = pk)
  | none => false

/-- The scheduled hashes in `ids` whose stored transfer was sent by `pk`. -/
def senderIds (s : SchemaState) (pk : PublicKey) (ids : List Hash) : List Hash :=
  ids.filter (isSentBy s pk)

/-- The committed amount of the transfer stored under `h` (zero commitment
when no transfer is stored). -/
def amountOf (s : SchemaState) (h : Hash) : Commitment :=
  match s.transfers h with
  | some t => t.amount
  | none => 0

/-- Sum of the committed amounts of the transfers in `ids` sent by `pk`. -/
def sumAmounts (s : SchemaState) (pk : PublicKey) (ids : List Hash) : Commitment :=
  ((senderIds s pk ids).map (amountOf s)).sum

theorem foldl_erase_self : ∀ (l : List Hash), l.Nodup → List.foldl List.erase l l = []
  | [], _ => rfl
  | h :: rest, hnd => by
    have : List.foldl List.erase (h :: rest) (h :: rest) =
        List.foldl List.erase ((h :: rest).erase h) rest := rfl
    rw [this, List.erase_cons_head]
    exact foldl_erase_self rest hnd.of_cons

theorem rollback_loop_book {ht : ℕ} : ∀ (ids : List Hash) (s : SchemaState)
    (acc : List (PublicKey × ℕ)) (out : SchemaState × List (PublicKey × ℕ)),
    do_rollback_loop ht s acc ids = some out →
    out.1.transfers = s.transfers ∧ out.1.txLoc = s.txLoc ∧
    (∀ b, b ≠ ht → out.1.rollback b = s.rollback b) ∧
    out.1.rollback ht = List.foldl List.erase (s.rollback ht) ids
  | [], s, acc, out, hres => by
    unfold do_rollback_loop at hres
    cases hres
    exact ⟨rfl, rfl, fun _ _ => rfl, rfl⟩
  | h :: rest, s, acc, out, hres => by
    unfold do_rollback_loop at hres
    split at hres
    case _ loc t hloc htr =>
      cases hrs : rollback_single s t h with
      | none => rw [hrs] at hres; cases hres
      | some s1 =>
        rw [hrs] at hres
        obtain ⟨sw, hw, rfl⟩ := rollback_single_some hrs
        obtain ⟨e1, e2, e3, e4⟩ := rollback_loop_book rest _ _ out hres
        refine ⟨e1, e2, ?_, ?_⟩
        · intro b hb
          rw [e3 b hb]
          show upd s.rollback ht ((s.rollback ht).erase h) b = s.rollback b
          rw [upd_ne _ _ _ _ hb]
        · rw [e4]
          show List.foldl List.erase
            (upd s.rollback ht ((s.rollback ht).erase h) ht) rest = _
          rw [upd_same]
          rfl
    case _ =>
      cases hres

theorem senderIds_cons_pos {s : SchemaState} {pk : PublicKey} {h : Hash} {t : Transfer}
    (htr : s.transfers h = some t) (hpk : t.fromPk = pk) (rest : List Hash) :
    senderIds s pk (h :: rest) = h :: senderIds s pk rest := by
  unfold senderIds
  rw [List.filter_cons_of_pos]
  unfold isSentBy
  rw [htr]
  simpa using hpk

theorem senderIds_cons_neg {s : SchemaState} {pk : PublicKey} {h : Hash} {t : Transfer}
    (htr : s.transfers h = some t) (hpk : t.fromPk ≠ pk) (rest : List Hash) :
    senderIds s pk (h :: rest) = senderIds s pk rest := by
  unfold senderIds
  rw [List.filter_cons_of_neg]
  unfold isSentBy
  rw [htr]
  simpa using hpk

theorem rollback_loop_history {ht : ℕ} : ∀ (ids : List Hash) (s : SchemaState)
    (acc : List (PublicKey × ℕ)) (out : SchemaState × List (PublicKey × ℕ))
    (s0 : SchemaState), do_rollback_loop ht s acc ids = some out →
    s.transfers = s0.transfers →
    ∀ pk, out.1.history pk = s.history pk ++ (senderIds s0 pk ids).map Event.rollback_ev
  | [], s, acc, out, s0, hres, _ => by
    unfold do_rollback_loop at hres
    cases hres
    intro pk
    simp [senderIds]
  | h :: rest, s, acc, out, s0, hres, htrEq => by
    unfold do_rollback_loop at hres
    split at hres
    case _ loc t hloc htr =>
      cases hrs : rollback_single s t h with
      | none => rw [hrs] at hres; cases hres
      | some s1 =>
        rw [hrs] at hres
        obtain ⟨sw, hw, rfl⟩ := rollback_single_some hrs
        intro pk
        have ih := rollback_loop_history rest _ _ out s0 hres htrEq pk
        have htr0 : s0.transfers h = some t := by rw [← htrEq]; exact htr
        rw [ih]
        show upd s.history t.fromPk (s.history t.fromPk ++ [Event.rollback_ev h]) pk ++ _ = _
        by_cases hpk : t.fromPk = pk
        · subst hpk
          rw [upd_same, senderIds_cons_pos htr0 rfl]
          simp
        · rw [upd_ne _ _ _ _ (fun he => hpk he.symm), senderIds_cons_neg htr0 hpk]
    case _ =>
      cases hres

theorem sumAmounts_cons_pos {s0 : SchemaState} {pk : PublicKey} {h : Hash} {t : Transfer}
    (htr0 : s0.transfers h = some t) (hpk : t.fromPk = pk) (rest : List Hash) :
    sumAmounts s0 pk (h :: rest) = t.amount + sumAmounts s0 pk rest := by
  unfold sumAmounts
  rw [senderIds_cons_pos htr0 hpk]
  simp [amountOf, htr0]

theorem sumAmounts_cons_neg {s0 : SchemaState} {pk : PublicKey} {h : Hash} {t : Transfer}
    (htr0 : s0.transfers h = some t) (hpk : t.fromPk ≠ pk) (rest : List Hash) :
    sumAmounts s0 pk (h :: rest) = sumAmounts s0 pk rest := by
  unfold sumAmounts
  rw [senderIds_cons_neg htr0 hpk]

theorem rollback_loop_wallets {ht : ℕ} : ∀ (ids : List Hash) (s : SchemaState)
    (acc : List (PublicKey × ℕ)) (out : SchemaState × List (PublicKey × ℕ))
    (s0 : SchemaState), do_rollback_loop ht s acc ids = some out →
    s.transfers = s0.transfers →
    (∀ pk w, s.wallets pk = some w → ∃ w', out.1.wallets pk = some w' ∧
      w'.public_key = w.public_key ∧
      w'.balance = w.balance + sumAmounts s0 pk ids ∧
      w'.history_len = w.history_len + (senderIds s0 pk ids).length ∧
      w'.last_send_index = w.last_send_index ∧
      w'.unaccepted_transfers_hash = w.unaccepted_transfers_hash) ∧
    (∀ pk, s.wallets pk = none → out.1.wallets pk = none)
  | [], s, acc, out, s0, hres, _ => by
    unfold do_rollback_loop at hres
    cases hres
    constructor
    · intro pk w hpk
      exact ⟨w, hpk, rfl, by simp [sumAmounts, senderIds], by simp [senderIds], rfl, rfl⟩
    · intro pk hpk
      exact hpk
  | h :: rest, s, acc, out, s0, hres, htrEq => by
    unfold do_rollback_loop at hres
    split at hres
    case _ loc t hloc htr =>
      cases hrs : rollback_single s t h with
      | none => rw [hrs] at hres; cases hres
      | some s1 =>
        rw [hrs] at hres
        obtain ⟨sw, hw, rfl⟩ := rollback_single_some hrs
        obtain ⟨ih1, ih2⟩ := rollback_loop_wallets rest _ _ out s0 hres htrEq
        have htr0 : s0.transfers h = some t := by rw [← htrEq]; exact htr
        constructor
        · intro pk w hpk
          by_cases hpkf : t.fromPk = pk
          · subst hpkf
            rw [hw] at hpk
            cases hpk
            have hs3w : upd s.wallets t.fromPk (some (sw.add_balance t.amount
                (historyRoot (s.history t.fromPk ++ [Event.rollback_ev h])))) t.fromPk =
                some (sw.add_balance t.amount
                  (historyRoot (s.history t.fromPk ++ [Event.rollback_ev h]))) :=
              upd_same _ _ _
            obtain ⟨w', hw', e1, e2, e3, e4, e5⟩ := ih1 t.fromPk _ hs3w
            refine ⟨w', hw', ?_, ?_, ?_, ?_, ?_⟩
            · exact e1
            · rw [e2, sumAmounts_cons_pos htr0 rfl]
              show sw.balance + t.amount + sumAmounts s0 t.fromPk rest = _
              rw [add_assoc]
            · rw [e3, senderIds_cons_pos htr0 rfl]
              show sw.history_len + 1 + (senderIds s0 t.fromPk rest).length = _
              simp [Nat.add_assoc, Nat.add_comm 1]
            · exact e4
            · exact e5
          · have hs3w : upd s.wallets t.fromPk (some (sw.add_balance t.amount
                (historyRoot (s.history t.fromPk ++ [Event.rollback_ev h])))) pk = some w := by
              rw [upd_ne _ _ _ _ (fun he => hpkf he.symm)]
              exact hpk
            obtain ⟨w', hw', e1, e2, e3, e4, e5⟩ := ih1 pk _ hs3w
            rw [sumAmounts_cons_neg htr0 hpkf, senderIds_cons_neg htr0 hpkf]
            exact ⟨w', hw', e1, e2, e3, e4, e5⟩
        · intro pk hpk
          have hpkf : pk ≠ t.fromPk := by
            rintro rfl
            rw [hw] at hpk
            cases hpk
          refine ih2 pk ?_
          show upd s.wallets t.fromPk _ pk = none
          rw [upd_ne _ _ _ _ hpkf]
          exact hpk
    case _ =>
      cases hres

theorem rollback_loop_pblen {ht : ℕ} : ∀ (ids : List Hash) (s : SchemaState)
    (acc : List (PublicKey × ℕ)) (out : SchemaState × List (PublicKey × ℕ))
    (s0 : SchemaState), do_rollback_loop ht s acc ids = some out →
    s.transfers = s0.transfers →
    ∀ pk, (out.1.pastBalances pk).length =
      (s.pastBalances pk).length + (senderIds s0 pk ids).length
  | [], s, acc, out, s0, hres, _ => by
    unfold do_rollback_loop at hres
    cases hres
    intro pk
    simp [senderIds]
  | h :: rest, s, acc, out, s0, hres, htrEq => by
    unfold do_rollback_loop at hres
    split at hres
    case _ loc t hloc htr =>
      cases hrs : rollback_single s t h with
      | none => rw [hrs] at hres; cases hres
      | some s1 =>
        rw [hrs] at hres
        obtain ⟨sw, hw, rfl⟩ := rollback_single_some hrs
        intro pk
        have ih := rollback_loop_pblen rest _ _ out s0 hres htrEq pk
        have htr0 : s0.transfers h = some t := by rw [← htrEq]; exact htr
        rw [ih]
        by_cases hpkf : t.fromPk = pk
        · subst hpkf
          rw [senderIds_cons_pos htr0 rfl]
          show (upd s.pastBalances t.fromPk
            ((s.pastBalances t.fromPk).push (sw.balance + t.amount)) t.fromPk).length + _ = _
          rw [upd_same]
          show (s.pastBalances t.fromPk).length + 1 + _ = _
          simp [Nat.add_assoc, Nat.add_comm 1]
        · rw [senderIds_cons_neg htr0 hpkf]
          show (upd s.pastBalances t.fromPk _ pk).length + _ = _
          rw [upd_ne _ _ _ _ (fun he => hpkf he.symm)]
    case _ =>
      cases hres

theorem rollback_loop_unacc {ht : ℕ} : ∀ (ids : List Hash) (s : SchemaState)
    (acc : List (PublicKey × ℕ)) (out : SchemaState × List (PublicKey × ℕ))
    (s0 : SchemaState), do_rollback_loop ht s acc ids = some out →
    s.transfers = s0.transfers →
    (∀ pk, (s.unaccepted pk).Nodup) →
    (∀ pk h0, h0 ∉ s.unaccepted pk → h0 ∉ out.1.unaccepted pk) ∧
    (∀ h0 ∈ ids, ∀ t0, s0.transfers h0 = some t0 → h0 ∉ out.1.unaccepted t0.toPk)
  | [], s, acc, out, s0, hres, _, _ => by
    unfold do_rollback_loop at hres
    cases hres
    exact ⟨fun pk h0 hn => hn, fun h0 hm => absurd hm (List.not_mem_nil h0)⟩
  | h :: rest, s, acc, out, s0, hres, htrEq, hU => by
    unfold do_rollback_loop at hres
    split at hres
    case _ loc t hloc htr =>
      cases hrs : rollback_single s t h with
      | none => rw [hrs] at hres; cases hres
      | some s1 =>
        rw [hrs] at hres
        obtain ⟨sw, hw, rfl⟩ := rollback_single_some hrs
        have htr0 : s0.transfers h = some t := by rw [← htrEq]; exact htr
        have hU3 : ∀ pk, (upd s.unaccepted t.toPk ((s.unaccepted t.toPk).erase h) pk).Nodup := by
          intro pk
          by_cases hkt : pk = t.toPk
          · subst hkt; rw [upd_same]; exact (hU _).erase h
          · rw [upd_ne _ _ _ _ hkt]; exact hU pk
        obtain ⟨ih1, ih2⟩ := rollback_loop_unacc rest _ _ out s0 hres htrEq hU3
        have hmono : ∀ pk h0, h0 ∉ s.unaccepted pk →
            h0 ∉ upd s.unaccepted t.toPk ((s.unaccepted t.toPk).erase h) pk := by
          intro pk h0 hn
          by_cases hkt : pk = t.toPk
          · subst hkt
            rw [upd_same]
            exact fun hmem => hn (List.mem_of_mem_erase hmem)
          · rw [upd_ne _ _ _ _ hkt]
            exact hn
        constructor
        · intro pk h0 hn
          exact ih1 pk h0 (hmono pk h0 hn)
        · intro h0 hm t0 htr0m
          rcases List.mem_cons.mp hm with rfl | hmrest
          · rw [htr0] at htr0m
            cases htr0m
            refine ih1 _ h0 ?_
            show h0 ∉ upd s.unaccepted t.toPk ((s.unaccepted t.toPk).erase h0) t.toPk
            rw [upd_same]
            exact (hU _).not_mem_erase
          · exact ih2 h0 hmrest t0 htr0m
    case _ =>
      cases hres

theorem updAssoc_keys_nodup {l : List (PublicKey × ℕ)} {k : PublicKey} {v : ℕ}
    (hnd : (l.map Prod.fst).Nodup) : ((updAssoc l k v).map Prod.fst).Nodup := by
  unfold updAssoc
  by_cases hany : l.any (fun p => decide (p.1 = k)) = true
  · rw [if_pos hany]
    have heq : (l.map (fun p => if p.1 = k then (k, v) else p)).map Prod.fst =
        l.map Prod.fst := by
      rw [List.map_map]
      apply List.map_congr_left
      intro p hp
      by_cases hpk : p.1 = k
      · simp [hpk]
      · simp [hpk]
    rw [heq]
    exact hnd
  · rw [if_neg hany]
    rw [List.map_append]
    rw [List.nodup_append]
    refine ⟨hnd, by simp, ?_⟩
    intro a ha hb
    simp only [List.map_cons, List.map_nil, List.mem_singleton] at hb
    subst hb
    obtain ⟨p, hp, hpk⟩ := List.mem_map.mp ha
    apply hany
    rw [List.any_eq_true]
    exact ⟨p, hp, by simp [hpk]⟩

theorem rollback_loop_keys {ht : ℕ} : ∀ (ids : List Hash) (s : SchemaState)
    (acc : List (PublicKey × ℕ)) (out : SchemaState × List (PublicKey × ℕ)),
    do_rollback_loop ht s acc ids = some out →
    (acc.map Prod.fst).Nodup → (out.2.map Prod.fst).Nodup
  | [], s, acc, out, hres, hnd => by
    unfold do_rollback_loop at hres
    cases hres
    exact hnd
  | h :: rest, s, acc, out, hres, hnd => by
    unfold do_rollback_loop at hres
    split at hres
    case _ loc t hloc htr =>
      cases hrs : rollback_single s t h with
      | none => rw [hrs] at hres; cases hres
      | some s1 =>
        rw [hrs] at hres
        exact rollback_loop_keys rest _ _ out hres (updAssoc_keys_nodup hnd)
    case _ =>
      cases hres

theorem write_roots_effects : ∀ (l : List (PublicKey × ℕ)) (s s' : SchemaState),
    write_roots s l = some s' →
    s'.history = s.history ∧ s'.unaccepted = s.unaccepted ∧ s'.rollback = s.rollback ∧
    s'.pastBalances = s.pastBalances ∧ s'.transfers = s.transfers ∧ s'.txLoc = s.txLoc ∧
    (∀ pk w, s.wallets pk = some w → ∃ w', s'.wallets pk = some w' ∧
      w'.public_key = w.public_key ∧ w'.balance = w.balance ∧
      w'.history_len = w.history_len ∧ w'.last_send_index = w.last_send_index) ∧
    (∀ pk, s.wallets pk = none → s'.wallets pk = none)
  | [], s, s', hres => by
    unfold write_roots at hres
    cases hres
    exact ⟨rfl, rfl, rfl, rfl, rfl, rfl,
      fun pk w hw => ⟨w, hw, rfl, rfl, rfl, rfl⟩, fun pk hn => hn⟩
  | (k, r) :: rest, s, s', hres => by
    unfold write_roots at hres
    cases hw : s.wallets k with
    | none => rw [hw] at hres; cases hres
    | some w =>
      rw [hw] at hres
      obtain ⟨e1, e2, e3, e4, e5, e6, ih1, ih2⟩ := write_roots_effects rest _ s' hres
      refine ⟨e1, e2, e3, e4, e5, e6, ?_, ?_⟩
      · intro pk w0 hpk
        by_cases hkk : pk = k
        · subst hkk
          rw [hw] at hpk
          cases hpk
          have hs2 : upd s.wallets pk (some (w.set_unaccepted_transfers_hash r)) pk =
              some (w.set_unaccepted_transfers_hash r) := upd_same _ _ _
          obtain ⟨w', hw', f1, f2, f3, f4⟩ := ih1 pk _ hs2
          exact ⟨w', hw', f1, f2, f3, f4⟩
        · have hs2 : upd s.wallets k (some (w.set_unaccepted_transfers_hash r)) pk =
              some w0 := by
            rw [upd_ne _ _ _ _ hkk]
            exact hpk
          exact ih1 pk w0 hs2
      · intro pk hpk
        have hkk : pk ≠ k := by
          rintro rfl
          rw [hw] at hpk
          cases hpk
        refine ih2 pk ?_
        show upd s.wallets k _ pk = none
        rw [upd_ne _ _ _ _ hkk]
        exact hpk

/-- Claim C9: adding openings whose values exceed `u64::MAX`, or subtracting
a larger value from a smaller one, fails the operation (no silent wrapping);
otherwise the resulting opening carries exactly the integer sum (resp.
difference) of the values and the scalar sum (resp. difference) of the
blindings, so its commitment equals the group sum (resp. difference) of the
two commitments. -/
theorem C9_opening_arithmetic :
    (∀ a b : Opening, 2 ^ 64 ≤ a.value + b.value → Opening.add a b = none) ∧
    (∀ a b : Opening, a.value < b.value → Opening.sub a b = none) ∧
    (∀ a b : Opening, a.value + b.value < 2 ^ 64 →
      Opening.add a b = some ⟨a.value + b.value, a.blinding + b.blinding⟩ ∧
      Commitment.from_opening ⟨a.value + b.value, a.blinding + b.blinding⟩ =
        Commitment.from_opening a + Commitment.from_opening b) ∧
    (∀ a b : Opening, b.value ≤ a.value →
      Opening.sub a b = some ⟨a.value - b.value, a.blinding - b.blinding⟩ ∧
      Commitment.from_opening ⟨a.value - b.value, a.blinding - b.blinding⟩ =
        Commitment.from_opening a - Commitment.from_opening b) := by
  refine ⟨?_, ?_, ?_, ?_⟩
  · intro a b hov
    unfold Opening.add
    rw [if_neg (by omega)]
  · intro a b hun
    unfold Opening.sub
    rw [if_neg (by omega)]
  · intro a b hok
    refine ⟨by unfold Opening.add; rw [if_pos hok], ?_⟩
    unfold Commitment.from_opening
    rw [Prod.mk_add_mk]
    push_cast
    rfl
  · intro a b hok
    refine ⟨by unfold Opening.sub; rw [if_pos hok], ?_⟩
    unfold Commitment.from_opening
    rw [Prod.mk_sub_mk]
    rw [Nat.cast_sub hok]

/-- Witness for C9 at concrete openings: an overflowing addition and an
underflowing subtraction fail, while in-range addition and subtraction
produce the componentwise results. -/
theorem C9_opening_arithmetic_witness :
    Opening.add ⟨2 ^ 63, 0⟩ ⟨2 ^ 63, 0⟩ = none ∧
    Opening.sub ⟨3, 5⟩ ⟨4, 1⟩ = none ∧
    Opening.add ⟨3, 1⟩ ⟨4, 2⟩ = some ⟨3 + 4, 1 + 2⟩ ∧
    Opening.sub ⟨4, 2⟩ ⟨3, 1⟩ = some ⟨4 - 3, 2 - 1⟩ :=
  ⟨C9_opening_arithmetic.1 ⟨2 ^ 63, 0⟩ ⟨2 ^ 63, 0⟩ (by norm_num),
   C9_opening_arithmetic.2.1 ⟨3, 5⟩ ⟨4, 1⟩ (by norm_num),
   (C9_opening_arithmetic.2.2.1 ⟨3, 1⟩ ⟨4, 2⟩ (by norm_num)).1,
   (C9_opening_arithmetic.2.2.2 ⟨4, 2⟩ ⟨3, 1⟩ (by norm_num)).1⟩

/-- Claim C3: stateless verification of a `Transfer` succeeds exactly when
the signature verifies under `from`, `from ≠ to`, `history_len > 0`,
`rollback_delay` lies in `[5, 1000)`, and the amount range proof is valid
against `amount − Comm(min_transfer_amount; 0)`. -/
theorem C3_transfer_stateless_verification (t : Transfer) :
    t.verify = true ↔
      t.signedBy = t.fromPk ∧ t.fromPk ≠ t.toPk ∧ 0 < t.history_len ∧
      5 ≤ t.rollback_delay ∧ t.rollback_delay < 1000 ∧
      t.amount_proof.verify (t.amount - Commitment.with_no_blinding 1) = true := by
  unfold Transfer.verify Transfer.verify_stateless CONFIG
  simp only [Bool.and_eq_true, decide_eq_true_eq]
  tauto

/-- Claim C2: a `Transfer` that passes stateless verification commits to an
amount of at least `min_transfer_amount = 1` — the amount proof is checked
against `amount − Comm(1; 0)`, so the amount opens to a value in
`[1, 2^64]`; in particular no transfer whose amount commits to `0` passes
stateless verification, for any blinding and any proof; and `Transfer::create`
produces exactly such a proof from the difference of openings. -/
theorem C2_min_transfer_amount :
    (∀ t : Transfer, t.verify_stateless = true →
      ∃ v b, 1 ≤ v ∧ v ≤ 2 ^ 64 ∧ t.amount = Commitment.from_opening ⟨v, b⟩) ∧
    (∀ (t : Transfer) (r : Scalar), t.amount = Commitment.from_opening ⟨0, r⟩ →
      t.verify_stateless = false) ∧
    (∀ (amount : ℕ) (blinding : Scalar) (receiver : PublicKey) (delay : ℕ)
      (senderPk : PublicKey) (bal : Opening) (hl : ℕ) (t : Transfer),
      Transfer.create amount blinding receiver delay senderPk bal hl = some t →
      t.amount = Commitment.from_opening ⟨amount, blinding⟩ ∧
      t.amount_proof.verify (t.amount - Commitment.with_no_blinding 1) = true) := by
  have hver : ∀ (p : SimpleRangeProof) (c : Commitment), p.verify c = true ↔
      p.claimed.value < 2 ^ 64 ∧ Commitment.from_opening p.claimed = c := by
    intro p c
    unfold SimpleRangeProof.verify
    simp
  refine ⟨?_, ?_, ?_⟩
  · intro t hv
    unfold Transfer.verify_stateless at hv
    simp only [Bool.and_eq_true, decide_eq_true_eq] at hv
    obtain ⟨hlen, hpf⟩ := hv
    rw [hver] at hpf
    obtain ⟨hlt, heq⟩ := hpf
    refine ⟨t.amount_proof.claimed.value + 1, t.amount_proof.claimed.blinding,
      by omega, by omega, ?_⟩
    have hamt : t.amount = Commitment.from_opening t.amount_proof.claimed +
        Commitment.with_no_blinding 1 := by
      rw [heq]
      abel
    rw [hamt]
    unfold Commitment.from_opening Commitment.with_no_blinding
    rw [Prod.mk_add_mk]
    push_cast
    ring_nf
  · intro t r hzero
    by_contra hne
    have hv : t.verify_stateless = true := by
      cases hb : t.verify_stateless
      · exact absurd hb hne
      · rfl
    unfold Transfer.verify_stateless at hv
    simp only [Bool.and_eq_true, decide_eq_true_eq] at hv
    obtain ⟨-, hpf⟩ := hv
    rw [hver] at hpf
    obtain ⟨hlt, heq⟩ := hpf
    rw [hzero] at heq
    unfold Commitment.from_opening Commitment.with_no_blinding at heq
    rw [Prod.mk_sub_mk, Prod.mk.injEq] at heq
    have h1 := heq.1
    simp only [CONFIG] at h1
    have hc : ((t.amount_proof.claimed.value + 1 : ℕ) : Scalar) = 0 := by
      push_cast at h1 ⊢
      rw [h1]
      ring
    rw [ZMod.natCast_zmod_eq_zero_iff_dvd] at hc
    have hle : ell ≤ t.amount_proof.claimed.value + 1 := Nat.le_of_dvd (by omega) hc
    have := two_pow_64_lt_ell
    omega
  · intro amount blinding receiver delay senderPk bal hl t hc
    simp only [Transfer.create, Opening.sub, Opening.with_no_blinding,
      SimpleRangeProof.prove, CONFIG, Option.bind_eq_bind] at hc
    by_cases h1 : (1 : ℕ) ≤ amount
    · rw [if_pos h1] at hc
      simp only [Option.some_bind] at hc
      by_cases h2 : amount - 1 < 2 ^ 64
      · rw [if_pos h2] at hc
        simp only [Option.some_bind] at hc
        by_cases h3 : amount ≤ bal.value
        · rw [if_pos h3] at hc
          simp only [Option.some_bind] at hc
          by_cases h4 : bal.value - amount < 2 ^ 64
          · rw [if_pos h4] at hc
            simp only [Option.some_bind, Option.pure_def, Option.some.injEq] at hc
            subst hc
            refine ⟨rfl, ?_⟩
            rw [hver]
            refine ⟨h2, ?_⟩
            unfold Commitment.from_opening Commitment.with_no_blinding
            rw [Prod.mk_sub_mk, Prod.mk.injEq]
            constructor
            · rw [Nat.cast_sub h1]
            · rfl
          · rw [if_neg h4] at hc
            simp only [Option.none_bind] at hc
            cases hc
        · rw [if_neg h3] at hc
          simp only [Option.none_bind] at hc
          cases hc
      · rw [if_neg h2] at hc
        simp only [Option.none_bind] at hc
        cases hc
    · rw [if_neg h1] at hc
      simp only [Option.none_bind] at hc
      cases hc

/-- Witness for C2: the concrete transfer committing to amount `5` with
zero blinding passes stateless verification, so its amount opens to a value
of at least `1`; a transfer whose amount commits to `0` fails stateless
verification; and `Transfer::create` at amount `5` yields a passing amount
proof. -/
theorem C2_min_transfer_amount_witness :
    (∃ v b, 1 ≤ v ∧ v ≤ 2 ^ 64 ∧
      (Transfer.mk 1 2 10 1 (Commitment.from_opening ⟨5, 0⟩) ⟨⟨4, 0⟩⟩ ⟨⟨999995, 0⟩⟩ 0 1).amount =
        Commitment.from_opening ⟨v, b⟩) ∧
    (Transfer.mk 1 2 10 1 (Commitment.from_opening ⟨0, 3⟩) ⟨⟨4, 0⟩⟩ ⟨⟨999995, 0⟩⟩ 0
      1).verify_stateless = false ∧
    ∀ t, Transfer.create 5 0 2 10 1 ⟨1000000, 0⟩ 1 = some t →
      t.amount_proof.verify (t.amount - Commitment.with_no_blinding 1) = true :=
  ⟨C2_min_transfer_amount.1 _ (by decide), C2_min_transfer_amount.2.1 _ 3 rfl,
    fun t hc => (C2_min_transfer_amount.2.2 5 0 2 10 1 ⟨1000000, 0⟩ 1 t hc).2⟩

theorem getIdx_none_iff : ∀ (l : List PublicKey) (n : ℕ), l.get? n = none ↔ l.length ≤ n
  | [], n => by simp
  | a :: l, 0 => by simp
  | a :: l, n + 1 => by
    simp only [List.get?_cons_succ, List.length_cons, Nat.succ_le_succ_iff]
    exact getIdx_none_iff l n

theorem mapValidators_eq_none_iff (ta : TrustAnchor) : ∀ l : List Precommit,
    mapValidators ta l = none ↔ ∃ p ∈ l, ta.validators.length ≤ p.validator
  | [] => by simp [mapValidators]
  | p :: rest => by
    unfold mapValidators
    cases hg : ta.validators.get? p.validator with
    | none =>
      constructor
      · intro _
        exact ⟨p, List.mem_cons_self p rest, (getIdx_none_iff _ _).mp hg⟩
      · intro _
        rfl
    | some pk =>
      cases hm : mapValidators ta rest with
      | none =>
        constructor
        · intro _
          obtain ⟨q, hq, hql⟩ := (mapValidators_eq_none_iff ta rest).mp hm
          exact ⟨q, List.mem_cons_of_mem p hq, hql⟩
        · intro _
          rfl
      | some pks =>
        constructor
        · intro h
          cases h
        · rintro ⟨q, hq, hql⟩
          exfalso
          rcases List.mem_cons.mp hq with rfl | hqr
          · rw [(getIdx_none_iff _ _).mpr hql] at hg
            cases hg
          · have hnone : mapValidators ta rest = none :=
              (mapValidators_eq_none_iff ta rest).mpr ⟨q, hqr, hql⟩
            rw [hm] at hnone
            cases hnone

theorem dedup_length_eq_iff {l : List PublicKey} :
    l.dedup.length = l.length ↔ l.Nodup := by
  constructor
  · intro h
    exact List.dedup_eq_self.mp (l.dedup_sublist.eq_of_length h)
  · intro h
    rw [List.dedup_eq_self.mpr h]

/-- Claim C8: `verify_block_proof` fails with `InvalidValidatorId` when any
precommit's validator id is out of range of the trust anchor's validator
list; otherwise with `DuplicateValidators` when two precommits map to the
same validator; otherwise with `NoQuorum` when the number of (distinct)
precommit validators is below `⌊2n/3⌋ + 1`; otherwise with
`InvalidSignature` when any precommit signature fails against its mapped
key; and succeeds otherwise. -/
theorem C8_verify_block_proof (ta : TrustAnchor) (bp : BlockProof) :
    ((∃ p ∈ bp.precommits, ta.validators.length ≤ p.validator) →
      verify_block_proof ta bp = .error .InvalidValidatorId) ∧
    (∀ keys, mapValidators ta bp.precommits = some keys →
      (¬ keys.Nodup → verify_block_proof ta bp = .error .DuplicateValidators) ∧
      (keys.Nodup → keys.length < 2 * ta.validators.length / 3 + 1 →
        verify_block_proof ta bp = .error .NoQuorum) ∧
      (keys.Nodup → 2 * ta.validators.length / 3 + 1 ≤ keys.length →
        (∃ q ∈ bp.precommits.zip keys, q.1.signedBy ≠ q.2) →
        verify_block_proof ta bp = .error .InvalidSignature) ∧
      (keys.Nodup → 2 * ta.validators.length / 3 + 1 ≤ keys.length →
        (∀ q ∈ bp.precommits.zip keys, q.1.signedBy = q.2) →
        verify_block_proof ta bp = .ok ())) := by
  constructor
  · intro hout
    unfold verify_block_proof
    rw [(mapValidators_eq_none_iff ta bp.precommits).mpr hout]
  · intro keys hkeys
    have hred : verify_block_proof ta bp =
        (if keys.dedup.length ≠ keys.length then
          Except.error BlockVerifyError.DuplicateValidators
        else if keys.length < 2 * ta.validators.length / 3 + 1 then
          Except.error BlockVerifyError.NoQuorum
        else if (! (bp.precommits.zip keys).all fun q => decide (q.1.signedBy = q.2)) = true then
          Except.error BlockVerifyError.InvalidSignature
        else Except.ok ()) := by
      unfold verify_block_proof
      rw [hkeys]
    refine ⟨?_, ?_, ?_, ?_⟩
    · intro hdup
      rw [hred, if_pos (fun he => hdup (dedup_length_eq_iff.mp he))]
    · intro hnd hq
      rw [hred, if_neg (fun hne => hne (dedup_length_eq_iff.mpr hnd)), if_pos hq]
    · intro hnd hq hbad
      rw [hred, if_neg (fun hne => hne (dedup_length_eq_iff.mpr hnd)), if_neg (by omega),
        if_pos]
      obtain ⟨q, hq0, hq1⟩ := hbad
      rw [Bool.not_eq_true']
      rw [Bool.eq_false_iff]
      intro hall
      rw [List.all_eq_true] at hall
      exact hq1 (by simpa using hall q hq0)
    · intro hnd hq hgood
      rw [hred, if_neg (fun hne => hne (dedup_length_eq_iff.mpr hnd)), if_neg (by omega),
        if_neg]
      rw [Bool.not_eq_true, Bool.not_eq_false']
      rw [List.all_eq_true]
      intro q hq0
      simpa using hgood q hq0

/-- Witness for C8 at a concrete three-validator anchor: a fully signed
quorum verifies, and dropping to a single precommit yields `NoQuorum`. -/
theorem C8_verify_block_proof_witness :
    verify_block_proof ⟨[10, 11, 12]⟩
      ⟨[⟨0, 10⟩, ⟨1, 11⟩, ⟨2, 12⟩]⟩ = .ok () ∧
    verify_block_proof ⟨[10, 11, 12]⟩ ⟨[⟨0, 10⟩]⟩ = .error .NoQuorum := by
  constructor
  · exact ((C8_verify_block_proof ⟨[10, 11, 12]⟩
      ⟨[⟨0, 10⟩, ⟨1, 11⟩, ⟨2, 12⟩]⟩).2 [10, 11, 12] rfl).2.2.2
      (by decide) (by decide) (by decide)
  · exact ((C8_verify_block_proof ⟨[10, 11, 12]⟩ ⟨[⟨0, 10⟩]⟩).2 [10] rfl).2.1
      (by decide) (by decide)

/-- Claim C7: `CreateWallet.execute` returns `WalletExists` and changes
nothing when a wallet is already present under the key; otherwise it
appends a `CreateWallet` event, and stores a wallet with
`balance = Comm(1_000_000; 0)`, `history_len = 1`, `last_send_index = 0`,
`history_hash` the recomputed history root, zero unaccepted-transfers hash,
and seeds `past_balances[pk][0]` with the new balance. -/
theorem C7_create_wallet_execute (s : SchemaState) (k : PublicKey) (txh : Hash) :
    ((s.wallets k).isSome = true → create_wallet s k txh = (.fail .WalletExists, s)) ∧
    (s.wallets k = none →
      (create_wallet s k txh).1 = .ok ∧
      (create_wallet s k txh).2.wallets k = some ⟨k, Commitment.with_no_blinding 1000000, 1, 0,
        historyRoot (s.history k ++ [Event.create_wallet_ev txh]), 0⟩ ∧
      (create_wallet s k txh).2.history k = s.history k ++ [Event.create_wallet_ev txh] ∧
      ((create_wallet s k txh).2.pastBalances k).get 0 =
        some (Commitment.with_no_blinding 1000000)) := by
  constructor
  · intro hsome
    unfold create_wallet
    rw [if_pos hsome]
  · intro hnone
    have hred : create_wallet s k txh = (.ok, { s with
        history := upd s.history k (s.history k ++ [Event.create_wallet_ev txh])
        pastBalances := upd s.pastBalances k ((s.pastBalances k).set 0
          (Wallet.mkInitial k (historyRoot (s.history k ++ [Event.create_wallet_ev txh]))).balance)
        wallets := upd s.wallets k (some (Wallet.mkInitial k
          (historyRoot (s.history k ++ [Event.create_wallet_ev txh])))) }) := by
      unfold create_wallet
      rw [if_neg (by rw [hnone]; simp)]
    rw [hred]
    refine ⟨rfl, ?_, ?_, ?_⟩
    · show upd s.wallets k _ k = _
      rw [upd_same]
      simp [Wallet.mkInitial, CONFIG]
    · show upd s.history k _ k = _
      rw [upd_same]
    · show (upd s.pastBalances k _ k).get 0 = _
      rw [upd_same]
      simp [SparseList.set, SparseList.get, Wallet.mkInitial, CONFIG]

/-- Claim C1 (spec-modelled `Transfer::execute`): with both wallets present,
the stateful checks run in the specified order — `OutdatedHistory` when
`sender.last_send_index + 1 > transfer.history_len`; otherwise
`InvalidHistoryRef` when `past_balances[from][history_len − 1]` is absent;
otherwise `IncorrectProof` when the sufficient-balance proof fails against
`past_balance − amount`; otherwise execution succeeds. -/
theorem C1_transfer_execute_stateful_checks (t : Transfer) (s : SchemaState)
    (txh : Hash) (bh : ℕ) (sender receiver : Wallet)
    (hs : s.wallets t.fromPk = some sender) (hr : s.wallets t.toPk = some receiver) :
    (t.history_len < sender.last_send_index + 1 →
      Transfer.execute t s txh bh = (.fail .OutdatedHistory, s)) ∧
    (sender.last_send_index + 1 ≤ t.history_len →
      (s.pastBalances t.fromPk).get (t.history_len - 1) = none →
      Transfer.execute t s txh bh = (.fail .InvalidHistoryRef, s)) ∧
    (∀ pb, sender.last_send_index + 1 ≤ t.history_len →
      (s.pastBalances t.fromPk).get (t.history_len - 1) = some pb →
      t.verify_stateful pb = false →
      Transfer.execute t s txh bh = (.fail .IncorrectProof, s)) ∧
    (∀ pb, sender.last_send_index + 1 ≤ t.history_len →
      (s.pastBalances t.fromPk).get (t.history_len - 1) = some pb →
      t.verify_stateful pb = true →
      (Transfer.execute t s txh bh).1 = .ok) := by
  refine ⟨?_, ?_, ?_, ?_⟩
  · intro hout
    unfold Transfer.execute
    rw [hs, hr]
    simp only [hout, if_true]
  · intro hidx hpb
    have hout : ¬ t.history_len < sender.last_send_index + 1 := by omega
    unfold Transfer.execute
    rw [hs, hr]
    simp only [hout, if_false, hpb]
  · intro pb hidx hpb hvsf
    have hout : ¬ t.history_len < sender.last_send_index + 1 := by omega
    unfold Transfer.execute
    rw [hs, hr]
    simp only [hout, if_false, hpb, hvsf, Bool.not_false, if_true]
  · intro pb hidx hpb hvsf
    have hout : ¬ t.history_len < sender.last_send_index + 1 := by omega
    unfold Transfer.execute
    rw [hs, hr]
    simp only [hout, if_false, hpb, hvsf, Bool.not_true, Bool.false_eq_true, if_false]

/-- Claim C4 (counterexample): at a concrete state whose receiver wallet
exists, whose transaction store holds the referenced transfer with
`to = receiver`, and whose `unaccepted[receiver]` set does not contain the
hash, `Accept::execute` does return `UnknownTransfer` — but the receiver's
history list has already been extended by the schema operation when the
error is returned, contradicting the claim that the history is unchanged
because the check precedes the append. -/
theorem C4_counterexample :
    (Accept.execute ⟨2, 55, 2⟩ { initState with
      wallets := upd initState.wallets 2
        (some ⟨2, Commitment.with_no_blinding 1000000, 1, 0, 0, 0⟩)
      transfers := upd initState.transfers 55
        (some ⟨1, 2, 10, 1, Commitment.from_opening ⟨5, 0⟩, ⟨⟨4, 0⟩⟩, ⟨⟨999995, 0⟩⟩, 0, 1⟩)
      txLoc := upd initState.txLoc 55 (some 3) }).1 = .fail .UnknownTransfer ∧
    (Accept.execute ⟨2, 55, 2⟩ { initState with
      wallets := upd initState.wallets 2
        (some ⟨2, Commitment.with_no_blinding 1000000, 1, 0, 0, 0⟩)
      transfers := upd initState.transfers 55
        (some ⟨1, 2, 10, 1, Commitment.from_opening ⟨5, 0⟩, ⟨⟨4, 0⟩⟩, ⟨⟨999995, 0⟩⟩, 0, 1⟩)
      txLoc := upd initState.txLoc 55 (some 3) }).2.history 2 ≠
    ({ initState with
      wallets := upd initState.wallets 2
        (some ⟨2, Commitment.with_no_blinding 1000000, 1, 0, 0, 0⟩)
      transfers := upd initState.transfers 55
        (some ⟨1, 2, 10, 1, Commitment.from_opening ⟨5, 0⟩, ⟨⟨4, 0⟩⟩, ⟨⟨999995, 0⟩⟩, 0, 1⟩)
      txLoc := upd initState.txLoc 55 (some 3) } : SchemaState).history 2 := by
  constructor
  · rfl
  · decide

/-- Claim C4 as amended: when the referenced transfer exists in the store
with `to = receiver` and its hash is not in `unaccepted[receiver]`,
`Accept::execute` fails with `UnknownTransfer`; the wallet record and every
other component are unchanged by the schema operation, but the receiver's
history list has already received the Transfer event, because in
`Schema::accept_payment` the history append precedes the membership check
(the framework discards the fork of a failed execution). -/
theorem C4_accept_unknown_transfer (a : Accept) (s : SchemaState) (t : Transfer) (loc : ℕ)
    (hloc : s.txLoc a.transfer_id = some loc) (ht : s.transfers a.transfer_id = some t)
    (hrecv : t.toPk = a.receiver) (hmem : a.transfer_id ∉ s.unaccepted a.receiver) :
    Accept.execute a s = (.fail .UnknownTransfer, { s with
      history := upd s.history t.toPk (s.history t.toPk ++ [Event.transfer_ev a.transfer_id]) }) := by
  have hne : ¬ t.toPk ≠ a.receiver := fun hcon => hcon hrecv
  have hmem2 : a.transfer_id ∉ s.unaccepted t.toPk := hrecv ▸ hmem
  unfold Accept.execute
  rw [hloc, ht]
  simp only [hne, if_false]
  unfold accept_payment
  simp only [hmem2, not_false_eq_true, if_true]

/-- A concrete verified transfer of amount `5` (blinding `0`) from wallet
`1` to wallet `2`, with sender history length `1`. -/
def tdemo : Transfer :=
  ⟨1, 2, 10, 1, Commitment.from_opening ⟨5, 0⟩, ⟨⟨4, 0⟩⟩, ⟨⟨999995, 0⟩⟩, 0, 1⟩

/-- The state after creating wallet `1`. -/
def demo1 : SchemaState := (create_wallet initState 1 101).2

/-- The state after creating wallets `1` and `2`. -/
def demo2 : SchemaState := (create_wallet demo1 2 102).2

/-- The state after executing `tdemo` (hash `55`) in the block at height
`3`; the refund is scheduled at height `13`. -/
def demo3 : SchemaState := (Transfer.execute tdemo demo2 55 3).2

/-- The state after the rollback hook has expired `tdemo` at height `13`. -/
def demo4 : SchemaState := (do_rollback demo3 13).getD initState

theorem demo1_reachable : Reachable demo1 :=
  Reachable.step Reachable.init (Step.create initState 1 101 demo1 rfl)

theorem demo2_reachable : Reachable demo2 :=
  Reachable.step demo1_reachable (Step.create demo1 2 102 demo2 rfl)

theorem demo3_reachable : Reachable demo3 :=
  Reachable.step demo2_reachable
    (Step.transfer demo2 tdemo 55 3 demo3 (by decide) rfl rfl rfl)

/-- Claim C6: in every reachable state, each wallet's past-balance cache
has an entry at every index of `[last_send_index, history_len)`, and the
entry at `history_len − 1` is the wallet's current balance commitment; the
invariant is established at wallet creation and preserved by
`update_sender`, `accept_payment` and `rollback_single` (the reachability
induction below runs over exactly those transitions). -/
theorem C6_past_balance_invariant (s : SchemaState) (hs : Reachable s) :
    ∀ pk w, s.wallets pk = some w →
      (∀ i, w.last_send_index ≤ i → i < w.history_len →
        ((s.pastBalances pk).get i).isSome = true) ∧
      (s.pastBalances pk).get (w.history_len - 1) = some w.balance := by
  intro pk w hpk
  obtain ⟨hW, -, -, -⟩ := inv_reachable hs
  obtain ⟨-, -, -, h4, h5⟩ := hW pk w hpk
  exact ⟨h4, h5⟩

/-- Witness for C6 at the reachable state with one freshly created wallet:
the cache entry at index `0` exists and equals the initial balance. -/
theorem C6_past_balance_invariant_witness :
    ((demo1.pastBalances 1).get 0).isSome = true ∧
    (demo1.pastBalances 1).get 0 = some (Commitment.with_no_blinding 1000000) := by
  have h := C6_past_balance_invariant demo1 demo1_reachable 1
    ⟨1, Commitment.with_no_blinding 1000000, 1, 0,
      historyRoot [Event.create_wallet_ev 101], 0⟩ rfl
  exact ⟨h.1 0 (by decide) (by decide), h.2⟩

/-- Claim C10: in every reachable state, a committed transfer's hash sits
in `unaccepted[transfer.to]` exactly when it sits in the rollback bucket at
its commit height plus its rollback delay — the two indexes never disagree
about a pending transfer. -/
theorem C10_pending_transfer_coherence (s : SchemaState) (hs : Reachable s)
    (h : Hash) (t : Transfer) (ht : s.transfers h = some t) :
    h ∈ s.unaccepted t.toPk ↔
      ∃ loc, s.txLoc h = some loc ∧ h ∈ s.rollback (loc + t.rollback_delay) := by
  obtain ⟨-, -, -, hP⟩ := inv_reachable hs
  constructor
  · intro hmem
    obtain ⟨t0, loc0, ht0, hpk0, hloc0, hbkt0⟩ := hP.1 h _ hmem
    rw [ht] at ht0
    cases ht0
    exact ⟨loc0, hloc0, hbkt0⟩
  · rintro ⟨loc, hloc, hbkt⟩
    obtain ⟨t0, loc0, ht0, hloc0, hhts, humem⟩ := hP.2 h _ hbkt
    rw [ht] at ht0
    cases ht0
    exact humem

/-- Witness for C10 at the reachable state holding one committed pending
transfer (hash `55`, committed at height `3`, delay `10`): membership in
the height-`13` rollback bucket forces membership in `unaccepted[2]`. -/
theorem C10_pending_transfer_coherence_witness :
    55 ∈ demo3.unaccepted 2 ∧ 55 ∈ demo3.rollback 13 := by
  have h := C10_pending_transfer_coherence demo3 demo3_reachable 55 tdemo rfl
  exact ⟨h.mpr ⟨3, rfl, by decide⟩, by decide⟩

/-- Claim C5: a successful run of the `do_rollback` hook at height `ht`
empties the rollback bucket at `ht`; removes every scheduled hash from its
receiver's unaccepted set; appends one Rollback event per expired transfer
to its sender's history; credits each sender's balance by the summed
transfer amounts and increments its `history_len` accordingly (leaving
`last_send_index` unchanged); extends each sender's past-balance cache by
one entry per refund, with the top entry equal to the final balance; and
performs its batched wallet writes over a receiver-keyed map with distinct
keys (at most one wallet write per distinct receiver). -/
theorem C5_do_rollback (s s' : SchemaState) (ht : ℕ)
    (hInv : ServiceInv s) (hdo : do_rollback s ht = some s') :
    s'.rollback ht = [] ∧
    (∀ h0 ∈ s.rollback ht, ∀ t0, s.transfers h0 = some t0 →
      h0 ∉ s'.unaccepted t0.toPk) ∧
    (∀ pk, s'.history pk =
      s.history pk ++ (senderIds s pk (s.rollback ht)).map Event.rollback_ev) ∧
    (∀ pk w, s.wallets pk = some w → ∃ w', s'.wallets pk = some w' ∧
      w'.balance = w.balance + sumAmounts s pk (s.rollback ht) ∧
      w'.history_len = w.history_len + (senderIds s pk (s.rollback ht)).length ∧
      w'.last_send_index = w.last_send_index) ∧
    (∀ pk, (s'.pastBalances pk).length =
      (s.pastBalances pk).length + (senderIds s pk (s.rollback ht)).length) ∧
    (∀ pk w', s'.wallets pk = some w' →
      (s'.pastBalances pk).get (w'.history_len - 1) = some w'.balance) ∧
    (∃ s1 acc, do_rollback_loop ht s [] (s.rollback ht) = some (s1, acc) ∧
      (acc.map Prod.fst).Nodup ∧ write_roots s1 acc = some s') := by
  have hInv' := inv_rollback hInv hdo
  obtain ⟨hW, hN, hD, hP⟩ := hInv
  unfold do_rollback at hdo
  cases hres : do_rollback_loop ht s [] (s.rollback ht) with
  | none => rw [hres] at hdo; cases hdo
  | some out =>
    rw [hres] at hdo
    obtain ⟨e1, e2, e3, e4, e5, e6, ihW1, ihW2⟩ := write_roots_effects out.2 out.1 s' hdo
    obtain ⟨b1, b2, b3, b4⟩ := rollback_loop_book (s.rollback ht) s [] out hres
    have hhist := rollback_loop_history (s.rollback ht) s [] out s hres rfl
    obtain ⟨w1, w2⟩ := rollback_loop_wallets (s.rollback ht) s [] out s hres rfl
    have hpbl := rollback_loop_pblen (s.rollback ht) s [] out s hres rfl
    obtain ⟨u1, u2⟩ := rollback_loop_unacc (s.rollback ht) s [] out s hres rfl hD.1
    have hkeys := rollback_loop_keys (s.rollback ht) s [] out hres (by simp)
    refine ⟨?_, ?_, ?_, ?_, ?_, ?_, ?_⟩
    · rw [e3, b4]
      exact foldl_erase_self _ (hD.2 ht)
    · intro h0 hm t0 ht0
      rw [e2]
      exact u2 h0 hm t0 ht0
    · intro pk
      rw [e1]
      exact hhist pk
    · intro pk w hw
      obtain ⟨w3, hw3, f1, f2, f3, f4, f5⟩ := w1 pk w hw
      obtain ⟨w', hw', g1, g2, g3, g4⟩ := ihW1 pk w3 hw3
      exact ⟨w', hw', by rw [g2, f2], by rw [g3, f3], by rw [g4, f4]⟩
    · intro pk
      rw [e4]
      exact hpbl pk
    · intro pk w' hw'
      obtain ⟨hWs, -, -, -⟩ := hInv'
      obtain ⟨-, -, -, -, h5⟩ := hWs pk w' hw'
      exact h5
    · exact ⟨out.1, out.2, rfl, hkeys, hdo⟩

/-- Witness for C5: running the hook at height `13` on the reachable state
with one scheduled transfer refunds it — the bucket is emptied and the hash
leaves the receiver's unaccepted set. -/
theorem C5_do_rollback_witness :
    do_rollback demo3 13 = some demo4 ∧ demo4.rollback 13 = [] ∧
    55 ∉ demo4.unaccepted 2 := by
  have h := C5_do_rollback demo3 demo4 13 (inv_reachable demo3_reachable) rfl
  exact ⟨rfl, h.1, h.2.1 55 (by decide) tdemo rfl⟩

/-- Witness for C7: re-creating an existing wallet fails with
`WalletExists` and leaves the state untouched, while the original creation
succeeded and seeded the past-balance cache. -/
theorem C7_create_wallet_execute_witness :
    create_wallet demo1 1 103 = (.fail .WalletExists, demo1) ∧
    (create_wallet initState 1 101).1 = .ok ∧
    (demo1.pastBalances 1).get 0 = some (Commitment.with_no_blinding 1000000) :=
  ⟨(C7_create_wallet_execute demo1 1 103).1 (by decide),
   ((C7_create_wallet_execute initState 1 101).2 rfl).1,
   ((C7_create_wallet_execute initState 1 101).2 rfl).2.2.2⟩

/-- Witness for C3: the concrete transfer `tdemo` satisfies all five
stateless conditions, so it verifies. -/
theorem C3_transfer_stateless_verification_witness : tdemo.verify = true :=
  (C3_transfer_stateless_verification tdemo).mpr
    ⟨rfl, by decide, by decide, by decide, by decide, by decide⟩

/-- Witness for C1 at the concrete two-wallet state: a stale
`history_len = 0` is rejected as `OutdatedHistory`; a future
`history_len = 2` as `InvalidHistoryRef`; a wrong sufficient-balance proof
as `IncorrectProof`; and the honest transfer executes. -/
theorem C1_transfer_execute_stateful_checks_witness :
    Transfer.execute { tdemo with history_len := 0 } demo2 55 3 =
      (.fail .OutdatedHistory, demo2) ∧
    Transfer.execute { tdemo with history_len := 2 } demo2 55 3 =
      (.fail .InvalidHistoryRef, demo2) ∧
    Transfer.execute { tdemo with sufficient_balance_proof := ⟨⟨1, 0⟩⟩ } demo2 55 3 =
      (.fail .IncorrectProof, demo2) ∧
    (Transfer.execute tdemo demo2 55 3).1 = .ok :=
  ⟨(C1_transfer_execute_stateful_checks { tdemo with history_len := 0 } demo2 55 3
      ⟨1, Commitment.with_no_blinding 1000000, 1, 0,
        historyRoot [Event.create_wallet_ev 101], 0⟩
      ⟨2, Commitment.with_no_blinding 1000000, 1, 0,
        historyRoot [Event.create_wallet_ev 102], 0⟩ rfl rfl).1 (by decide),
   (C1_transfer_execute_stateful_checks { tdemo with history_len := 2 } demo2 55 3
      ⟨1, Commitment.with_no_blinding 1000000, 1, 0,
        historyRoot [Event.create_wallet_ev 101], 0⟩
      ⟨2, Commitment.with_no_blinding 1000000, 1, 0,
        historyRoot [Event.create_wallet_ev 102], 0⟩ rfl rfl).2.1 (by decide) rfl,
   (C1_transfer_execute_stateful_checks { tdemo with sufficient_balance_proof := ⟨⟨1, 0⟩⟩ }
      demo2 55 3
      ⟨1, Commitment.with_no_blinding 1000000, 1, 0,
        historyRoot [Event.create_wallet_ev 101], 0⟩
      ⟨2, Commitment.with_no_blinding 1000000, 1, 0,
        historyRoot [Event.create_wallet_ev 102], 0⟩ rfl rfl).2.2.1
      (Commitment.with_no_blinding 1000000) (by decide) rfl (by decide),
   (C1_transfer_execute_stateful_checks tdemo demo2 55 3
      ⟨1, Commitment.with_no_blinding 1000000, 1, 0,
        historyRoot [Event.create_wallet_ev 101], 0⟩
      ⟨2, Commitment.with_no_blinding 1000000, 1, 0,
        historyRoot [Event.create_wallet_ev 102], 0⟩ rfl rfl).2.2.2
      (Commitment.with_no_blinding 1000000) (by decide) rfl (by decide)⟩

/-- Witness for the amended C4: accepting the already-refunded transfer
`55` at the post-rollback state fails with `UnknownTransfer`, with the
receiver's history extended by the pushed event and all other state
components unchanged. -/
theorem C4_accept_unknown_transfer_witness :
    Accept.execute ⟨2, 55, 2⟩ demo4 = (.fail .UnknownTransfer, { demo4 with
      history := upd demo4.history 2 (demo4.history 2 ++ [Event.transfer_ev 55]) }) :=
  C4_accept_unknown_transfer ⟨2, 55, 2⟩ demo4 tdemo 3 rfl rfl rfl (by decide)
